import Mathlib

/-!
# Verification of the Life OS weekly scheduling engine

This file is a shallow embedding, in Lean 4, of the scheduling core of the
Life OS agent repository.  The repository contains two parallel variants of
the scheduler:

* `life-os-agent/src/lifeos/scheduler.py` (namespace `LifeOS` below): the
  range-sweep availability calculator, the preference filter, the coverage
  analyzer and the greedy proposal generator that shrinks slots in place;
* `apps/life-os-agent/src/lifeos/scheduler.py` (namespace `Apps` below): the
  per-day availability calculator with the hardcoded 06:00-22:00 waking
  window, which appends synthesized work/commitment blocks to the event list
  it is given.

Modelling conventions:

* Timestamps (`datetime`) are integers counting seconds from a reference
  Monday 00:00:00; calendar dates (`date`) are integers counting days from
  that Monday, so `weekday d = d.emod 7` with `0 = Monday` and
  `datetime.combine(d, time(h, m)) = d * 86400 + h * 3600 + m * 60`.
* `duration_minutes`, i.e. `int((end - start).total_seconds() / 60)`, is
  `(stop - start).tdiv 60`: `Int.tdiv` truncates toward zero exactly as
  Python's `int(...)` conversion does.
* `HH:MM` strings are modelled as already parsed minutes-of-day integers
  (the `parse_time_of_day` / `start_time` / `end_time` glue).
* Python's stable `list.sort(key=...)` is `List.insertionSort` with the
  non-strict key comparison, which is stable for equal keys.
* Python `dict`s keyed by activity id are modelled as lists in insertion
  order (the iteration order of `dict` in Python); theorems that depend on
  the dict/list correspondence assume the documented invariant that
  activity ids are unique.
* Python field name `end` is a Lean keyword, so slot/event structures use
  `stop` for it.
-/

namespace LifeOS

/-- `TimeSlot` from `life-os-agent/src/lifeos/scheduler.py` (the metadata
fields `event_id`, `event_summary`, `is_lifeos_event`, `activity_id` are
carried by busy slots only and never read by the algorithms modelled here,
so they are omitted; `is_available` likewise only labels the slot). -/
structure TimeSlot where
  start : Int
  stop : Int
deriving DecidableEq, Repr

/-- `TimeSlot.duration_minutes`: `int((end - start).total_seconds() / 60)`. -/
def TimeSlot.duration_minutes (s : TimeSlot) : Int :=
  (s.stop - s.start).tdiv 60

/-- `TimeSlot.overlaps`: `self.start < other.end and other.start < self.end`. -/
def TimeSlot.overlaps (s other : TimeSlot) : Prop :=
  s.start < other.stop ∧ other.start < s.stop

instance (s other : TimeSlot) : Decidable (s.overlaps other) := instDecidableAnd

/-- `TimeSlot.contains`: `self.start <= dt < self.end`. -/
def TimeSlot.containsDt (s : TimeSlot) (dt : Int) : Prop :=
  s.start ≤ dt ∧ dt < s.stop

instance (s : TimeSlot) (dt : Int) : Decidable (s.containsDt dt) := instDecidableAnd

/-- A calendar event as consumed by the `life-os` scheduler: a Google
calendar event dict with a parsed `start.dateTime` / `end.dateTime` and the
optional `extendedProperties.private.lifeos_activity_id` tag.  (Events
without a `dateTime`, i.e. all-day events, are outside the model; the
remaining dict fields are never read by the scheduling logic.) -/
structure Event where
  start : Int
  stop : Int
  activity_id : Option String
deriving DecidableEq, Repr

/-- The busy `TimeSlot` built from an event in `get_available_slots`. -/
def Event.toSlot (e : Event) : TimeSlot :=
  { start := e.start, stop := e.stop }

/-- Comparison key used by `busy_slots.sort(key=lambda s: s.start)`. -/
def slotLe (a b : TimeSlot) : Prop := a.start ≤ b.start

instance : DecidableRel slotLe := fun a b => Int.decLe a.start b.start

instance : IsTotal TimeSlot slotLe := ⟨fun a b => Int.le_total a.start b.start⟩

instance : IsTrans TimeSlot slotLe := ⟨fun _ _ _ h1 h2 => le_trans h1 h2⟩

/-- The gap sweep of `get_available_slots`: starting from `current`, walk the
(sorted) busy slots; whenever a busy slot starts strictly after the cursor,
emit the gap if it is at least `min_duration` minutes long, then advance the
cursor to `max current busy.stop`; finally emit the trailing gap up to
`end_date` if it qualifies. -/
def sweep (end_date min_duration : Int) : List TimeSlot → Int → List TimeSlot
  | [], current =>
    if current < end_date then
      let gap : TimeSlot := { start := current, stop := end_date }
      if min_duration ≤ gap.duration_minutes then [gap] else []
    else []
  | busy :: rest, current =>
    (if current < busy.start then
      let gap : TimeSlot := { start := current, stop := busy.start }
      if min_duration ≤ gap.duration_minutes then [gap] else []
    else []) ++ sweep end_date min_duration rest (max current busy.stop)

/-- `Scheduler.get_available_slots` from the `life-os` variant: convert the
events to busy slots, sort them by start (Python's sort is stable; with the
key `s.start` this is `insertionSort slotLe`), and sweep for gaps. -/
def get_available_slots (existing_events : List Event)
    (start_date end_date : Int) (min_duration : Int := 15) : List TimeSlot :=
  let busy_slots := (existing_events.map Event.toSlot).insertionSort slotLe
  sweep end_date min_duration busy_slots start_date

theorem tdiv60_nonneg {a : Int} (h : 0 ≤ a) : 0 ≤ a.tdiv 60 :=
  Int.tdiv_nonneg h (by norm_num)

theorem le_duration {m a b : Int} (hm : m ≤ 0) (h : a ≤ b) :
    m ≤ TimeSlot.duration_minutes ⟨a, b⟩ := by
  simp only [TimeSlot.duration_minutes]
  exact le_trans hm (tdiv60_nonneg (by omega))

/-- Every slot the sweep emits starts no earlier than the cursor, is
nonempty, and—when every busy slot ends inside the range—ends by
`end_date`. -/
theorem sweep_bounds {e m : Int} :
    ∀ {L : List TimeSlot} {cur : Int},
      (∀ b ∈ L, b.start ≤ b.stop) → (∀ b ∈ L, b.stop ≤ e) →
      ∀ {s : TimeSlot}, s ∈ sweep e m L cur →
        cur ≤ s.start ∧ s.start < s.stop ∧ s.stop ≤ e
  | [], cur, _, _, s, hs => by
    simp only [sweep] at hs
    split at hs
    · split at hs
      · rcases List.mem_singleton.mp hs with rfl
        refine ⟨le_refl _, by assumption, le_refl _⟩
      · exact absurd hs (List.not_mem_nil _)
    · exact absurd hs (List.not_mem_nil _)
  | x :: L, cur, hwf, hcont, s, hs => by
    simp only [sweep, List.mem_append] at hs
    rcases hs with hgap | hrec
    · have hxw := hwf x (List.mem_cons_self x L)
      have hxc := hcont x (List.mem_cons_self x L)
      split at hgap
      · split at hgap
        · rcases List.mem_singleton.mp hgap with rfl
          exact ⟨le_refl _, by assumption, le_trans hxw hxc⟩
        · exact absurd hgap (List.not_mem_nil _)
      · exact absurd hgap (List.not_mem_nil _)
    · have ih := sweep_bounds (fun b hb => hwf b (List.mem_cons_of_mem x hb))
        (fun b hb => hcont b (List.mem_cons_of_mem x hb)) hrec
      exact ⟨le_trans (le_max_left _ _) ih.1, ih.2⟩

/-- The emitted slots never overlap any busy slot of the (sorted) input. -/
theorem sweep_disjoint {e m : Int} :
    ∀ {L : List TimeSlot} {cur : Int},
      (∀ b ∈ L, b.start ≤ b.stop) → (∀ b ∈ L, b.stop ≤ e) →
      L.Sorted slotLe →
      ∀ {s : TimeSlot}, s ∈ sweep e m L cur →
        ∀ b ∈ L, s.stop ≤ b.start ∨ b.stop ≤ s.start
  | [], _, _, _, _, _, _, b, hb => absurd hb (List.not_mem_nil b)
  | x :: L, cur, hwf, hcont, hsort, s, hs, b, hb => by
    simp only [sweep, List.mem_append] at hs
    have hwf' : ∀ b ∈ L, b.start ≤ b.stop :=
      fun b hb => hwf b (List.mem_cons_of_mem x hb)
    have hcont' : ∀ b ∈ L, b.stop ≤ e :=
      fun b hb => hcont b (List.mem_cons_of_mem x hb)
    rcases hs with hgap | hrec
    · have hstop : s.stop = x.start := by
        split at hgap
        · split at hgap
          · rcases List.mem_singleton.mp hgap with rfl; rfl
          · exact absurd hgap (List.not_mem_nil _)
        · exact absurd hgap (List.not_mem_nil _)
      rcases List.mem_cons.mp hb with rfl | hb'
      · exact Or.inl (le_of_eq hstop)
      · exact Or.inl (hstop ▸ (List.rel_of_sorted_cons hsort b hb'))
    · have ih := sweep_bounds hwf' hcont' hrec
      rcases List.mem_cons.mp hb with rfl | hb'
      · exact Or.inr (le_trans (le_max_right _ _) ih.1)
      · exact sweep_disjoint hwf' hcont' hsort.of_cons hrec b hb'

/-- The emitted slots are in chronological order: each slot ends no later
than the next one starts. -/
theorem sweep_chain {e m : Int} :
    ∀ {L : List TimeSlot} {cur : Int},
      (∀ b ∈ L, b.start ≤ b.stop) → (∀ b ∈ L, b.stop ≤ e) →
      L.Sorted slotLe →
      List.Chain' (fun a b => a.stop ≤ b.start) (sweep e m L cur)
  | [], cur, _, _, _ => by
    simp only [sweep]
    split
    · split
      · exact List.chain'_singleton _
      · exact List.chain'_nil
    · exact List.chain'_nil
  | x :: L, cur, hwf, hcont, hsort => by
    have hwf' : ∀ b ∈ L, b.start ≤ b.stop :=
      fun b hb => hwf b (List.mem_cons_of_mem x hb)
    have hcont' : ∀ b ∈ L, b.stop ≤ e :=
      fun b hb => hcont b (List.mem_cons_of_mem x hb)
    have hrec := @sweep_chain e m L (max cur x.stop) hwf' hcont' hsort.of_cons
    simp only [sweep]
    split
    · split
      · refine List.chain'_cons'.mpr ⟨?_, hrec⟩
        intro y hy
        have hy' := List.mem_of_mem_head? hy
        have := sweep_bounds hwf' hcont' hy'
        calc x.start ≤ x.stop := hwf x (List.mem_cons_self x L)
          _ ≤ max cur x.stop := le_max_right _ _
          _ ≤ y.start := this.1
      · simpa using hrec
    · simpa using hrec

/-- Union characterization of the sweep when no minimum-duration filtering
happens (`min_duration ≤ 0`): a point is covered by some emitted slot iff it
lies in `[cur, end_date)` and in no busy slot. -/
theorem sweep_mem_iff {e m : Int} (hm : m ≤ 0) :
    ∀ {L : List TimeSlot} {cur : Int},
      (∀ b ∈ L, b.start ≤ b.stop) → (∀ b ∈ L, b.stop ≤ e) →
      L.Sorted slotLe →
      ∀ t : Int, (∃ s ∈ sweep e m L cur, s.containsDt t) ↔
        (cur ≤ t ∧ t < e ∧ ∀ b ∈ L, ¬ b.containsDt t)
  | [], cur, _, _, _, t => by
    simp only [sweep]
    split
    · rename_i hlt
      rw [if_pos (le_duration hm (by omega))]
      constructor
      · rintro ⟨s, hs, hts⟩
        rcases List.mem_singleton.mp hs with rfl
        exact ⟨hts.1, hts.2, fun b hb => absurd hb (List.not_mem_nil b)⟩
      · rintro ⟨h1, h2, _⟩
        exact ⟨_, List.mem_singleton_self _, h1, h2⟩
    · rename_i hlt
      constructor
      · rintro ⟨s, hs, _⟩; exact absurd hs (List.not_mem_nil s)
      · rintro ⟨h1, h2, _⟩; omega
  | x :: L, cur, hwf, hcont, hsort, t => by
    have hwf' : ∀ b ∈ L, b.start ≤ b.stop :=
      fun b hb => hwf b (List.mem_cons_of_mem x hb)
    have hcont' : ∀ b ∈ L, b.stop ≤ e :=
      fun b hb => hcont b (List.mem_cons_of_mem x hb)
    have hxw := hwf x (List.mem_cons_self x L)
    have hxc := hcont x (List.mem_cons_self x L)
    have ih := @sweep_mem_iff e m hm L (max cur x.stop) hwf' hcont' hsort.of_cons t
    simp only [sweep, List.mem_append]
    constructor
    · rintro ⟨s, hs, hts⟩
      rcases hs with hgap | hrec
      · split at hgap
        · rename_i hlt
          rw [if_pos (le_duration hm (by omega : cur ≤ x.start))] at hgap
          rcases List.mem_singleton.mp hgap with rfl
          simp only [TimeSlot.containsDt] at hts
          obtain ⟨ht1, ht2⟩ := hts
          refine ⟨ht1, by omega, ?_⟩
          intro b hb
          rcases List.mem_cons.mp hb with rfl | hb'
          · simp only [TimeSlot.containsDt]; omega
          · have := List.rel_of_sorted_cons hsort b hb'
            simp only [slotLe] at this
            simp only [TimeSlot.containsDt]; omega
        · exact absurd hgap (List.not_mem_nil _)
      · obtain ⟨h1, h2, h3⟩ := ih.mp ⟨s, hrec, hts⟩
        refine ⟨le_trans (le_max_left _ _) h1, h2, ?_⟩
        intro b hb
        rcases List.mem_cons.mp hb with rfl | hb'
        · have : b.stop ≤ t := le_trans (le_max_right _ _) h1
          simp only [TimeSlot.containsDt]; omega
        · exact h3 b hb'
    · rintro ⟨h1, h2, h3⟩
      have hx := h3 x (List.mem_cons_self x L)
      simp only [TimeSlot.containsDt] at hx
      by_cases hcase : t < x.start
      · -- the point falls in the gap before `x`
        have hlt : cur < x.start := by omega
        rw [if_pos hlt, if_pos (le_duration hm (by omega : cur ≤ x.start))]
        exact ⟨_, Or.inl (List.mem_singleton_self _), h1, hcase⟩
      · -- the point lies at or beyond `x.stop`
        have hge : x.stop ≤ t := by omega
        obtain ⟨s, hs, hts⟩ := ih.mpr
          ⟨by simp only [max_le_iff]; exact ⟨h1, hge⟩, h2,
            fun b hb => h3 b (List.mem_cons_of_mem x hb)⟩
        exact ⟨s, Or.inr hs, hts⟩

theorem mem_busySorted {existing_events : List Event} {b : TimeSlot} :
    b ∈ (existing_events.map Event.toSlot).insertionSort slotLe ↔
      ∃ ev ∈ existing_events, b = ev.toSlot := by
  rw [(List.perm_insertionSort slotLe _).mem_iff, List.mem_map]
  constructor
  · rintro ⟨ev, hev, rfl⟩; exact ⟨ev, hev, rfl⟩
  · rintro ⟨ev, hev, rfl⟩; exact ⟨ev, hev, rfl⟩

/-- C1, counterexample to the claim as stated: `get_available_slots` is
called with its default `min_duration = 15`, so a 10-minute free gap at the
start of the range (and a 5-minute one at its end) is dropped.  The single
busy interval `[600 s, 5700 s)` is contained in the range `[0 s, 6000 s)` and
the instant `t = 0` is free, yet the returned slot list is empty: the union
of the returned slots omits free time, contradicting the claimed exact
partition. -/
theorem c1_counterexample :
    get_available_slots [⟨600, 5700, none⟩] 0 6000 = [] ∧
    (∀ ev ∈ [(⟨600, 5700, none⟩ : Event)],
        ev.start ≤ ev.stop ∧ (0:Int) ≤ ev.start ∧ ev.stop ≤ 6000) ∧
    ((0:Int) ≤ 0 ∧ (0:Int) < 6000) ∧
    ¬ (Event.toSlot ⟨600, 5700, none⟩).containsDt 0 := by
  refine ⟨by decide, by decide, by decide, by decide⟩

/-- C1 (amended): for pairwise non-overlapping busy events contained in
`[start_date, end_date)`, the slots returned by `get_available_slots` are in
chronological order, pairwise non-overlapping, and disjoint from every busy
interval; and provided no minimum-duration filtering happens
(`min_duration ≤ 0`), their union is exactly `[start_date, end_date)` minus
the union of the busy intervals.  (With a positive `min_duration`, maximal
free gaps shorter than the minimum are omitted, as the counterexample
shows.) -/
theorem c1_available_slots_partition
    (existing_events : List Event) (start_date end_date min_duration : Int)
    (hwf : ∀ ev ∈ existing_events, ev.start ≤ ev.stop)
    (hcont : ∀ ev ∈ existing_events, start_date ≤ ev.start ∧ ev.stop ≤ end_date)
    (_hdisj : existing_events.Pairwise fun a b => ¬ a.toSlot.overlaps b.toSlot) :
    List.Chain' (fun a b => a.stop ≤ b.start)
        (get_available_slots existing_events start_date end_date min_duration) ∧
    (∀ s ∈ get_available_slots existing_events start_date end_date min_duration,
        s.start < s.stop) ∧
    (∀ s ∈ get_available_slots existing_events start_date end_date min_duration,
        ∀ ev ∈ existing_events, ¬ s.overlaps ev.toSlot) ∧
    (min_duration ≤ 0 → ∀ t : Int,
        (∃ s ∈ get_available_slots existing_events start_date end_date min_duration,
            s.containsDt t) ↔
          start_date ≤ t ∧ t < end_date ∧
            ∀ ev ∈ existing_events, ¬ ev.toSlot.containsDt t) := by
  have hwfL : ∀ b ∈ (existing_events.map Event.toSlot).insertionSort slotLe,
      b.start ≤ b.stop := by
    intro b hb
    obtain ⟨ev, hev, rfl⟩ := mem_busySorted.mp hb
    exact hwf ev hev
  have hcontL : ∀ b ∈ (existing_events.map Event.toSlot).insertionSort slotLe,
      b.stop ≤ end_date := by
    intro b hb
    obtain ⟨ev, hev, rfl⟩ := mem_busySorted.mp hb
    exact (hcont ev hev).2
  have hsort := List.sorted_insertionSort slotLe (existing_events.map Event.toSlot)
  refine ⟨sweep_chain hwfL hcontL hsort, ?_, ?_, ?_⟩
  · intro s hs
    exact (sweep_bounds hwfL hcontL hs).2.1
  · intro s hs ev hev
    have := sweep_disjoint hwfL hcontL hsort hs (ev.toSlot)
      (mem_busySorted.mpr ⟨ev, hev, rfl⟩)
    simp only [TimeSlot.overlaps]
    omega
  · intro hm t
    rw [show (∃ s ∈ get_available_slots existing_events start_date end_date
          min_duration, s.containsDt t) ↔ _ from
        sweep_mem_iff hm hwfL hcontL hsort t]
    constructor
    · rintro ⟨h1, h2, h3⟩
      exact ⟨h1, h2, fun ev hev => h3 ev.toSlot (mem_busySorted.mpr ⟨ev, hev, rfl⟩)⟩
    · rintro ⟨h1, h2, h3⟩
      refine ⟨h1, h2, fun b hb => ?_⟩
      obtain ⟨ev, hev, rfl⟩ := mem_busySorted.mp hb
      exact h3 ev hev

/-- Witness instantiating `c1_available_slots_partition` at a concrete
input: one busy event `[3600 s, 7200 s)` inside `[0 s, 10800 s)` with
`min_duration = 0`. -/
theorem c1_witness :
    ((∀ ev ∈ [(⟨3600, 7200, none⟩ : Event)], ev.start ≤ ev.stop) ∧
      (∀ ev ∈ [(⟨3600, 7200, none⟩ : Event)],
        (0:Int) ≤ ev.start ∧ ev.stop ≤ 10800) ∧
      ([(⟨3600, 7200, none⟩ : Event)].Pairwise
        fun a b => ¬ a.toSlot.overlaps b.toSlot)) ∧
    (List.Chain' (fun a b => a.stop ≤ b.start)
        (get_available_slots [⟨3600, 7200, none⟩] 0 10800 0) ∧
      (∀ s ∈ get_available_slots [⟨3600, 7200, none⟩] 0 10800 0,
          s.start < s.stop) ∧
      (∀ s ∈ get_available_slots [⟨3600, 7200, none⟩] 0 10800 0,
          ∀ ev ∈ [(⟨3600, 7200, none⟩ : Event)], ¬ s.overlaps ev.toSlot) ∧
      ((0:Int) ≤ 0 → ∀ t : Int,
          (∃ s ∈ get_available_slots [⟨3600, 7200, none⟩] 0 10800 0,
              s.containsDt t) ↔
            (0:Int) ≤ t ∧ t < 10800 ∧
              ∀ ev ∈ [(⟨3600, 7200, none⟩ : Event)], ¬ ev.toSlot.containsDt t)) :=
  ⟨⟨by decide, by decide, by decide⟩,
    c1_available_slots_partition [⟨3600, 7200, none⟩] 0 10800 0
      (by decide) (by decide) (by decide)⟩

/-! ## Week bounds, preference filter and configuration model -/

/-- `Scheduler.get_week_bounds`: find the Monday of the week of `start_date`
(`start_date.weekday()` days back), zero the time of day, and add 7 days.
`weekday()` of a timestamp is the weekday of its calendar day, and zeroing
`hour/minute/second/microsecond` floors the timestamp to its day start. -/
def get_week_bounds (start_date : Int) : Int × Int :=
  let days_since_monday := start_date.fdiv 86400 % 7
  let week_start := start_date - days_since_monday * 86400
  let week_start := week_start.fdiv 86400 * 86400
  (week_start, week_start + 7 * 86400)

/-- Weekday index of a timestamp (`0 = Monday`, as Python's `weekday()`). -/
def weekdayOf (t : Int) : Int := t.fdiv 86400 % 7

/-- Hour of day of a timestamp (Python's `.hour`, in `[0, 24)`). -/
def hourOf (t : Int) : Int := t % 86400 / 3600

/-- Lowercased English day name, as `strftime("%A").lower()` produces. -/
def dayNameOf (w : Int) : String :=
  if w = 0 then "monday" else if w = 1 then "tuesday"
  else if w = 2 then "wednesday" else if w = 3 then "thursday"
  else if w = 4 then "friday" else if w = 5 then "saturday" else "sunday"

/-- `time_preference: str | list[str]` (the `None` case is carried by an
outer `Option`). -/
inductive TimePref where
  | single (s : String)
  | multi (l : List String)
deriving DecidableEq, Repr

/-- Python truthiness of the `time_preference` value: `None`, `""` and `[]`
are falsy. -/
def timePrefTruthy : Option TimePref → Bool
  | none => false
  | some (.single s) => decide (s ≠ "")
  | some (.multi l) => decide (l ≠ [])

/-- `prefs = [time_preference] if isinstance(time_preference, str) else
time_preference`. -/
def prefListOf : Option TimePref → List String
  | none => []
  | some (.single s) => [s]
  | some (.multi l) => l

/-- Python truthiness of the `day_preference` value. -/
def dayPrefTruthy : Option (List String) → Bool
  | none => false
  | some l => decide (l ≠ [])

/-- The `matches_pref` elif-chain of `filter_slots_by_preference` for a
single preference string. -/
def matchesPref (hour : Int) (pref : String) : Bool :=
  decide (pref = "morning" ∧ 5 ≤ hour ∧ hour < 12) ||
  decide (pref = "afternoon" ∧ 12 ≤ hour ∧ hour < 17) ||
  decide (pref = "evening" ∧ 17 ≤ hour ∧ hour < 22) ||
  decide (pref = "flexible") || decide (pref = "any")

/-- One slot's pass through the guard-continue body of the filter loop:
dropped if a truthy day preference does not list the slot's day name, or if
a truthy time preference has no entry matching the slot's start hour. -/
def slotPasses (time_preference : Option TimePref)
    (day_preference : Option (List String)) (slot : TimeSlot) : Bool :=
  (if dayPrefTruthy day_preference then
      decide (dayNameOf (weekdayOf slot.start) ∈ day_preference.getD [])
    else true) &&
  (if timePrefTruthy time_preference then
      (prefListOf time_preference).any (matchesPref (hourOf slot.start))
    else true)

/-- `Scheduler.filter_slots_by_preference`. -/
def filter_slots_by_preference (slots : List TimeSlot)
    (time_preference : Option TimePref)
    (day_preference : Option (List String)) : List TimeSlot :=
  if time_preference = none ∧ day_preference = none then slots
  else slots.filter (slotPasses time_preference day_preference)

/-- `Activity.frequency: str | int` — `"daily"`, `"weekly"`, an `int` (or a
plain numeric string, which behaves identically), or a range string
`"a-b"`. -/
inductive Frequency where
  | daily
  | weekly
  | exact (n : Int)
  | range (a b : Int)
deriving DecidableEq, Repr

/-- `Activity.duration: str | int` — minutes or a range string `"a-b"`. -/
inductive Duration where
  | exact (n : Int)
  | range (a b : Int)
deriving DecidableEq, Repr

/-- `Activity` from `life-os-agent/src/lifeos/config.py` (fields read by the
scheduler; `category`, `location`, `note`, `sub_interests` are presentation
only). -/
structure Activity where
  id : String
  name : String
  frequency : Frequency
  duration : Duration
  days_preference : Option (List String)
  time_preference : Option TimePref
deriving DecidableEq, Repr

/-- `Activity.get_duration_range`. -/
def Activity.get_duration_range (a : Activity) : Int × Int :=
  match a.duration with
  | .exact n => (n, n)
  | .range lo hi => (lo, hi)

/-- `Activity.get_frequency_range`. -/
def Activity.get_frequency_range (a : Activity) : Int × Int :=
  match a.frequency with
  | .daily => (7, 7)
  | .weekly => (1, 1)
  | .exact n => (n, n)
  | .range lo hi => (lo, hi)

/-- `Priorities`: the four tiers. -/
structure Priorities where
  critical : List String
  high : List String
  medium : List String
  low : List String
deriving DecidableEq, Repr

/-- The configuration fields the scheduler reads. -/
structure LifeOSConfig where
  activities : List Activity
  priorities : Priorities
deriving DecidableEq, Repr

/-- `LifeOSConfig.get_activity_priority`: first-match lookup through
critical → high → medium → low, defaulting to `"medium"`. -/
def LifeOSConfig.get_activity_priority (config : LifeOSConfig)
    (activity_id : String) : String :=
  if activity_id ∈ config.priorities.critical then "critical"
  else if activity_id ∈ config.priorities.high then "high"
  else if activity_id ∈ config.priorities.medium then "medium"
  else if activity_id ∈ config.priorities.low then "low"
  else "medium"

/-! ## Requirement calculator, coverage analyzer, proposal generator -/

/-- One entry of the `calculate_weekly_requirements` dict (the dict keyed by
`activity.id` is modelled as a list in insertion order, i.e. the order of
`config.activities`; theorems that rely on this assume ids are unique). -/
structure Requirement where
  activity : Activity
  min_sessions : Int
  max_sessions : Int
  min_duration : Int
  max_duration : Int
  total_min_minutes : Int
  total_max_minutes : Int
  priority : String
deriving DecidableEq, Repr

/-- `Scheduler.calculate_weekly_requirements`. -/
def calculate_weekly_requirements (config : LifeOSConfig) : List Requirement :=
  config.activities.map fun activity =>
    let fr := activity.get_frequency_range
    let dr := activity.get_duration_range
    { activity := activity
      min_sessions := fr.1, max_sessions := fr.2
      min_duration := dr.1, max_duration := dr.2
      total_min_minutes := fr.1 * dr.1, total_max_minutes := fr.2 * dr.2
      priority := config.get_activity_priority activity.id }

/-- One entry of the `analyze_scheduled_vs_required` dict. -/
structure AnalysisEntry where
  activity : Activity
  required_sessions : Int × Int
  required_minutes : Int × Int
  scheduled_sessions : Int
  scheduled_minutes : Int
  sessions_deficit : Int
  sessions_surplus : Int
  minutes_deficit : Int
  priority : String
deriving DecidableEq, Repr

/-- The events counted for an activity id: those whose
`extendedProperties.private.lifeos_activity_id` equals it (this variant has
no title fallback). -/
def matchingEvents (existing_events : List Event) (activity_id : String) :
    List Event :=
  existing_events.filter fun e => e.activity_id = some activity_id

/-- `Scheduler.analyze_scheduled_vs_required`.  The `week_start`/`week_end`
arguments are accepted and ignored, exactly as in the source (the loop never
reads them). -/
def analyze_scheduled_vs_required (config : LifeOSConfig)
    (existing_events : List Event) (week_start week_end : Int) :
    List AnalysisEntry :=
  let _ := week_start
  let _ := week_end
  (calculate_weekly_requirements config).map fun req =>
    let matching := matchingEvents existing_events req.activity.id
    let scheduled_sessions : Int := matching.length
    let scheduled_minutes : Int :=
      (matching.map fun e => (e.stop - e.start).tdiv 60).sum
    { activity := req.activity
      required_sessions := (req.min_sessions, req.max_sessions)
      required_minutes := (req.total_min_minutes, req.total_max_minutes)
      scheduled_sessions := scheduled_sessions
      scheduled_minutes := scheduled_minutes
      sessions_deficit := max 0 (req.min_sessions - scheduled_sessions)
      sessions_surplus := max 0 (scheduled_sessions - req.max_sessions)
      minutes_deficit := max 0 (req.total_min_minutes - scheduled_minutes)
      priority := req.priority }

/-- A proposed block (`ScheduleProposal`); the human-readable `reasoning`
string is presentation only and omitted. -/
structure ScheduleProposal where
  activity : Activity
  start : Int
  stop : Int
  priority : String
deriving DecidableEq, Repr

/-- `priority_order = {"critical": 0, "high": 1, "medium": 2, "low": 3}`
with `.get(priority, 2)`. -/
def priorityRank (priority : String) : Int :=
  if priority = "critical" then 0 else if priority = "high" then 1
  else if priority = "medium" then 2 else if priority = "low" then 3 else 2

/-- Sort key of `activities_to_schedule`:
`(priority_order.get(priority, 2), -sessions_deficit)`. -/
def scheduleKey (d : AnalysisEntry) : Int × Int :=
  (priorityRank d.priority, -d.sessions_deficit)

/-- Python tuple comparison on the sort key (non-strict, so that
`insertionSort` reproduces the stable `sorted(...)`). -/
def entryLe (a b : AnalysisEntry) : Prop :=
  (scheduleKey a).1 < (scheduleKey b).1 ∨
    ((scheduleKey a).1 = (scheduleKey b).1 ∧ (scheduleKey a).2 ≤ (scheduleKey b).2)

instance : DecidableRel entryLe := fun _ _ =>
  @instDecidableOr _ _ (Int.decLt _ _)
    (@instDecidableAnd _ _ (Int.decEq _ _) (Int.decLe _ _))

instance : IsTotal AnalysisEntry entryLe :=
  ⟨fun a b => by unfold entryLe; omega⟩

instance : IsTrans AnalysisEntry entryLe :=
  ⟨fun _ _ _ h1 h2 => by unfold entryLe at *; omega⟩

/-- The inner booking loop of `propose_schedule` for one activity.  The
Python loop walks `preferred_slots`, whose elements alias the slots of
`available`; booking shrinks the slot object in place (`slot.start =
end_time`) and decrements `needed_sessions`, and `break`s once the deficit
is filled.  Since the filtered list is an in-order sublist of `available`
and each slot object is visited at most once, this is rendered as a single
walk over `available` in which only slots satisfying `consider` (pass the
preference filter, or everything after the empty-filter fallback) are
candidates; the returned list is `available` with the booked slots
shrunk. -/
def book_sessions (min_dur : Int) (consider : TimeSlot → Bool) :
    Int → List TimeSlot → List (Int × Int) × List TimeSlot
  | _, [] => ([], [])
  | needed_sessions, slot :: rest =>
    if needed_sessions ≤ 0 then ([], slot :: rest)
    else if consider slot then
      if min_dur ≤ slot.duration_minutes then
        let duration := min min_dur slot.duration_minutes
        let end_time := slot.start + duration * 60
        let step := book_sessions min_dur consider (needed_sessions - 1) rest
        ((slot.start, end_time) :: step.1, { slot with start := end_time } :: step.2)
      else
        let step := book_sessions min_dur consider needed_sessions rest
        (step.1, slot :: step.2)
    else
      let step := book_sessions min_dur consider needed_sessions rest
      (step.1, slot :: step.2)

/-- The body of `propose_schedule`'s outer loop for one deficit activity:
compute `preferred_slots` via the preference filter, fall back to the whole
`available` list if it is empty, then book up to `sessions_deficit`
sessions. -/
def schedule_activity (entry : AnalysisEntry) (available : List TimeSlot) :
    List ScheduleProposal × List TimeSlot :=
  let activity := entry.activity
  let min_dur := activity.get_duration_range.1
  let preferred_slots :=
    filter_slots_by_preference available activity.time_preference
      activity.days_preference
  let consider : TimeSlot → Bool :=
    if preferred_slots.isEmpty then fun _ => true
    else slotPasses activity.time_preference activity.days_preference
  let step := book_sessions min_dur consider entry.sessions_deficit available
  (step.1.map fun b =>
      { activity := activity, start := b.1, stop := b.2,
        priority := entry.priority },
    step.2)

/-- The sorted `activities_to_schedule` list of `propose_schedule`. -/
def activities_to_schedule (config : LifeOSConfig)
    (existing_events : List Event) (week_start week_end : Int) :
    List AnalysisEntry :=
  ((analyze_scheduled_vs_required config existing_events week_start
      week_end).filter fun d => decide (0 < d.sessions_deficit)).insertionSort
    entryLe

/-- `Scheduler.propose_schedule` (with an explicit `week_start`; the
`week_start=None` default just substitutes `get_week_bounds()` of the
current time). -/
def propose_schedule (config : LifeOSConfig) (existing_events : List Event)
    (week_start : Int) : List ScheduleProposal :=
  let week_end := week_start + 7 * 86400
  let available := get_available_slots existing_events week_start week_end
  ((activities_to_schedule config existing_events week_start
      week_end).foldl
    (fun acc entry =>
      let step := schedule_activity entry acc.2
      (acc.1 ++ step.1, step.2))
    (([] : List ScheduleProposal), available)).1

/-! ## The booking loop -/

/-- Characterization of the booking loop: it books exactly the first
`needed.toNat` candidate slots whose duration is at least `min_dur` minutes,
each yielding the block
`[slot.start, slot.start + min min_dur slot.duration_minutes * 60)`. -/
theorem book_sessions_eq_take (min_dur : Int) (consider : TimeSlot → Bool) :
    ∀ (slots : List TimeSlot) (needed : Int),
      (book_sessions min_dur consider needed slots).1 =
        ((slots.filter fun s =>
            consider s && decide (min_dur ≤ s.duration_minutes)).take
          needed.toNat).map
          fun s => (s.start, s.start + min min_dur s.duration_minutes * 60)
  | [], needed => by
    simp [book_sessions]
  | slot :: rest, needed => by
    by_cases h0 : needed ≤ 0
    · have ht : needed.toNat = 0 := by omega
      simp [book_sessions, if_pos h0, ht]
    · rw [book_sessions, if_neg h0]
      by_cases hc : consider slot
      · by_cases hq : min_dur ≤ slot.duration_minutes
        · have hpred : (consider slot && decide (min_dur ≤ slot.duration_minutes))
              = true := by
            rw [hc, decide_eq_true hq]; rfl
          have ht : needed.toNat = (needed - 1).toNat + 1 := by omega
          rw [if_pos hc, if_pos hq]
          simp only [List.filter_cons, hpred, if_true]
          rw [ht, List.take_succ_cons, List.map_cons]
          rw [book_sessions_eq_take min_dur consider rest (needed - 1)]
        · have hpred : (consider slot && decide (min_dur ≤ slot.duration_minutes))
              = false := by
            rw [decide_eq_false hq]; simp
          rw [if_pos hc, if_neg hq]
          simp only [List.filter_cons, hpred]
          exact book_sessions_eq_take min_dur consider rest needed
      · have hc' : consider slot = false := by
          revert hc; cases consider slot <;> simp
        have hpred : (consider slot && decide (min_dur ≤ slot.duration_minutes))
            = false := by rw [hc']; rfl
        rw [if_neg hc]
        simp only [List.filter_cons, hpred]
        exact book_sessions_eq_take min_dur consider rest needed

/-- With the trivial candidate predicate, a positive deficit and some slot
of sufficient duration, the booking loop books at least one session. -/
theorem book_sessions_ne_nil (min_dur needed : Int) (slots : List TimeSlot)
    (h0 : 0 < needed) (hex : ∃ s ∈ slots, min_dur ≤ s.duration_minutes) :
    (book_sessions min_dur (fun _ => true) needed slots).1 ≠ [] := by
  rw [book_sessions_eq_take]
  obtain ⟨s, hs, hq⟩ := hex
  have hmem : s ∈ slots.filter
      fun s => (fun _ => true) s && decide (min_dur ≤ s.duration_minutes) :=
    List.mem_filter.mpr ⟨hs, by simp [hq]⟩
  obtain ⟨f, fs, hf⟩ : ∃ f fs, slots.filter
      (fun s => (fun _ => true) s && decide (min_dur ≤ s.duration_minutes)) =
        f :: fs := by
    cases hfil : slots.filter
        (fun s => (fun _ => true) s && decide (min_dur ≤ s.duration_minutes)) with
    | nil => rw [hfil] at hmem; exact absurd hmem (List.not_mem_nil _)
    | cons f fs => exact ⟨f, fs, rfl⟩
  obtain ⟨n, hn⟩ : ∃ n, needed.toNat = n + 1 := ⟨needed.toNat - 1, by omega⟩
  rw [hf, hn, List.take_succ_cons, List.map_cons]
  exact List.cons_ne_nil _ _

/-! ## Stability of the activity sort -/

/-- `orderedInsert` with a relation that holds whenever keys are equal puts
the inserted element in front of the elements of its own key and leaves
every key class otherwise unchanged. -/
theorem filter_key_orderedInsert {α β : Type} [DecidableEq β] (key : α → β)
    (r : α → α → Prop) [DecidableRel r]
    (hEq : ∀ a b, key a = key b → r a b) (a : α) (K : β) :
    ∀ l : List α,
      (List.orderedInsert r a l).filter (fun x => decide (key x = K)) =
        if key a = K then
          a :: l.filter (fun x => decide (key x = K))
        else l.filter fun x => decide (key x = K)
  | [] => by
    by_cases hk : key a = K
    · simp [List.orderedInsert, List.filter, hk]
    · simp [List.orderedInsert, List.filter, hk]
  | b :: l => by
    rw [List.orderedInsert]
    by_cases hr : r a b
    · rw [if_pos hr]
      by_cases hk : key a = K
      · simp [List.filter_cons, hk]
      · simp [List.filter_cons, hk]
    · rw [if_neg hr]
      have hkb : key b ≠ key a := fun h => hr (hEq a b h.symm)
      rw [List.filter_cons, filter_key_orderedInsert key r hEq a K l]
      by_cases hk : key a = K
      · have hbK : ¬ (key b = K) := fun h => hkb (h.trans hk.symm)
        simp only [hk, if_true, decide_eq_true_eq]
        rw [if_neg hbK, List.filter_cons, if_neg (by simpa using hbK)]
      · simp only [hk, if_false, decide_eq_true_eq]
        by_cases hbK : key b = K
        · rw [if_pos hbK, List.filter_cons, if_pos (by simpa using hbK)]
        · rw [if_neg hbK, List.filter_cons, if_neg (by simpa using hbK)]

/-- Stability of `insertionSort` with a relation that holds whenever keys
are equal: each key class comes out in its original order. -/
theorem filter_key_insertionSort {α β : Type} [DecidableEq β] (key : α → β)
    (r : α → α → Prop) [DecidableRel r]
    (hEq : ∀ a b, key a = key b → r a b) (K : β) :
    ∀ l : List α,
      (l.insertionSort r).filter (fun x => decide (key x = K)) =
        l.filter fun x => decide (key x = K)
  | [] => rfl
  | a :: l => by
    rw [List.insertionSort, filter_key_orderedInsert key r hEq a K _,
      List.filter_cons]
    by_cases hk : key a = K
    · rw [if_pos hk, if_pos (by simpa using hk),
        filter_key_insertionSort key r hEq K l]
    · rw [if_neg hk, if_neg (by simpa using hk),
        filter_key_insertionSort key r hEq K l]

theorem entryLe_of_key_eq (a b : AnalysisEntry)
    (h : scheduleKey a = scheduleKey b) : entryLe a b := by
  unfold entryLe
  rw [h]
  omega

/-! ## Claim theorems on the booking loop, ordering, fallback, week bounds -/

/-- C2: in `propose_schedule`'s booking loop, while the session deficit is
unfilled a candidate slot is booked iff its whole-minute duration is at
least the activity's minimum session duration (`>=`, so a 45-minute slot
qualifies for a 45-minute minimum and a 44-minute slot does not), and each
booked session is exactly `min(min_dur, slot.duration_minutes)` minutes
long, starting at the slot's start. -/
theorem c2_booking_boundary (min_dur : Int) (consider : TimeSlot → Bool)
    (slots : List TimeSlot) (needed : Int) :
    ((book_sessions min_dur consider needed slots).1 =
      ((slots.filter fun s =>
          consider s && decide (min_dur ≤ s.duration_minutes)).take
        needed.toNat).map
        fun s => (s.start, s.start + min min_dur s.duration_minutes * 60)) ∧
    (book_sessions 45 (fun _ => true) 1 [⟨0, 2700⟩]).1 = [(0, 2700)] ∧
    (book_sessions 45 (fun _ => true) 1 [⟨0, 2640⟩]).1 = [] :=
  ⟨book_sessions_eq_take min_dur consider slots needed, by decide, by decide⟩

/-- C3: `propose_schedule` processes exactly the analysis entries with
positive session deficit, sorted by `(priority rank asc, deficit desc)`
(`entryLe` is the Python tuple order on
`(priority_order.get(p, 2), -sessions_deficit)`), and the sort is stable:
each key class keeps the insertion order of the configuration's activity
list.  (Activity ids are assumed unique, as the configuration requires, so
that the modelled list reproduces the Python dict's iteration order.) -/
theorem c3_schedule_order (config : LifeOSConfig) (existing_events : List Event)
    (week_start week_end : Int)
    (_hids : (config.activities.map Activity.id).Nodup) :
    (activities_to_schedule config existing_events week_start week_end).Perm
        ((analyze_scheduled_vs_required config existing_events week_start
            week_end).filter fun d => decide (0 < d.sessions_deficit)) ∧
    (activities_to_schedule config existing_events week_start
        week_end).Sorted entryLe ∧
    ∀ K : Int × Int,
      (activities_to_schedule config existing_events week_start
          week_end).filter (fun d => decide (scheduleKey d = K)) =
        ((analyze_scheduled_vs_required config existing_events week_start
            week_end).filter fun d => decide (0 < d.sessions_deficit)).filter
          fun d => decide (scheduleKey d = K) := by
  refine ⟨List.perm_insertionSort entryLe _, List.sorted_insertionSort entryLe _,
    fun K => ?_⟩
  exact filter_key_insertionSort scheduleKey entryLe entryLe_of_key_eq K _

/-- Concrete fixture: two activities with equal priority and deficit. -/
def actA : Activity :=
  { id := "a", name := "A", frequency := .exact 1, duration := .exact 30,
    days_preference := none, time_preference := none }

/-- Concrete fixture, identical shape to `actA` with another id. -/
def actB : Activity :=
  { id := "b", name := "B", frequency := .exact 1, duration := .exact 30,
    days_preference := none, time_preference := none }

/-- Concrete fixture: configuration holding `actA` and `actB`, empty
priority tiers (both default to medium). -/
def cfgAB : LifeOSConfig :=
  { activities := [actA, actB],
    priorities := { critical := [], high := [], medium := [], low := [] } }

/-- Witness for `c3_schedule_order`: two medium-priority activities with
equal deficit 1 stay in configuration order. -/
theorem c3_witness :
    (cfgAB.activities.map Activity.id).Nodup ∧
    ((activities_to_schedule cfgAB [] 0 604800).Perm
        ((analyze_scheduled_vs_required cfgAB [] 0 604800).filter
          fun d => decide (0 < d.sessions_deficit)) ∧
      (activities_to_schedule cfgAB [] 0 604800).Sorted entryLe ∧
      ∀ K : Int × Int,
        (activities_to_schedule cfgAB [] 0 604800).filter
            (fun d => decide (scheduleKey d = K)) =
          ((analyze_scheduled_vs_required cfgAB [] 0 604800).filter
            fun d => decide (0 < d.sessions_deficit)).filter
            fun d => decide (scheduleKey d = K)) :=
  ⟨by decide, c3_schedule_order cfgAB [] 0 604800 (by decide)⟩

/-- C5: when the preference filter returns no slot for a deficit activity,
`propose_schedule` walks the full unfiltered available-slot list instead,
and hence books at least one session whenever the deficit is positive and
some unfiltered slot is long enough. -/
theorem c5_preference_fallback (entry : AnalysisEntry)
    (available : List TimeSlot)
    (hfilter : filter_slots_by_preference available
        entry.activity.time_preference entry.activity.days_preference = []) :
    schedule_activity entry available =
      (((book_sessions entry.activity.get_duration_range.1 (fun _ => true)
            entry.sessions_deficit available).1.map fun b =>
          { activity := entry.activity, start := b.1, stop := b.2,
            priority := entry.priority }),
        (book_sessions entry.activity.get_duration_range.1 (fun _ => true)
            entry.sessions_deficit available).2) ∧
    (0 < entry.sessions_deficit →
      (∃ s ∈ available,
          entry.activity.get_duration_range.1 ≤ s.duration_minutes) →
      (schedule_activity entry available).1 ≠ []) := by
  have hstep : schedule_activity entry available =
      (((book_sessions entry.activity.get_duration_range.1 (fun _ => true)
            entry.sessions_deficit available).1.map fun b =>
          { activity := entry.activity, start := b.1, stop := b.2,
            priority := entry.priority }),
        (book_sessions entry.activity.get_duration_range.1 (fun _ => true)
            entry.sessions_deficit available).2) := by
    simp only [schedule_activity, hfilter, List.isEmpty_nil, if_true]
  refine ⟨hstep, fun h0 hex => ?_⟩
  rw [hstep]
  simp only [ne_eq, List.map_eq_nil_iff]
  exact book_sessions_ne_nil _ _ _ h0 hex

/-- Concrete fixture: a Saturday-morning-only activity. -/
def actSat : Activity :=
  { id := "sat", name := "Sat", frequency := .exact 1, duration := .exact 30,
    days_preference := some ["saturday"],
    time_preference := some (.single "morning") }

/-- Concrete fixture: analysis entry with deficit 1 for `actSat`. -/
def entrySat : AnalysisEntry :=
  { activity := actSat, required_sessions := (1, 1),
    required_minutes := (30, 30), scheduled_sessions := 0,
    scheduled_minutes := 0, sessions_deficit := 1, sessions_surplus := 0,
    minutes_deficit := 30, priority := "medium" }

/-- Witness for `c5_preference_fallback`: a Saturday-only activity, one
available Monday slot; the filter is empty, yet a session is booked. -/
theorem c5_witness :
    (filter_slots_by_preference [(⟨0, 7200⟩ : TimeSlot)]
        entrySat.activity.time_preference entrySat.activity.days_preference
      = []) ∧
    (schedule_activity entrySat [(⟨0, 7200⟩ : TimeSlot)]).1 ≠ [] :=
  ⟨by decide,
    (c5_preference_fallback entrySat [⟨0, 7200⟩] (by decide)).2 (by decide)
      ⟨⟨0, 7200⟩, by decide, by decide⟩⟩

theorem fdiv_86400 (a : Int) : a.fdiv 86400 = a / 86400 :=
  Int.fdiv_eq_ediv a (by norm_num)

/-- C9: `get_week_bounds` of a Wednesday timestamp returns the Monday of
that week at 00:00:00 (weekday 0, time-of-day 0, within 7 days before the
input) and an end exactly 7 days later. -/
theorem c9_week_bounds_wednesday (start_date : Int)
    (hwed : weekdayOf start_date = 2) :
    weekdayOf (get_week_bounds start_date).1 = 0 ∧
    (get_week_bounds start_date).1 % 86400 = 0 ∧
    (get_week_bounds start_date).1 ≤ start_date ∧
    start_date < (get_week_bounds start_date).1 + 7 * 86400 ∧
    (get_week_bounds start_date).2 = (get_week_bounds start_date).1 + 7 * 86400 := by
  unfold get_week_bounds weekdayOf at *
  simp only [fdiv_86400] at *
  have h1 : (start_date - start_date / 86400 % 7 * 86400) / 86400 =
      start_date / 86400 - start_date / 86400 % 7 := by
    rw [sub_eq_add_neg, ← neg_mul,
      Int.add_mul_ediv_right start_date _ (by norm_num : (86400:Int) ≠ 0)]
    ring
  have h2 : ∀ x : Int, x * 86400 / 86400 = x := fun x =>
    Int.mul_ediv_cancel x (by norm_num)
  simp only [h1, h2]
  refine ⟨by omega, by omega, by omega, by omega, by trivial⟩

/-- Witness for `c9_week_bounds_wednesday` at Wednesday 14:00 of the
reference week. -/
theorem c9_witness :
    (weekdayOf (2 * 86400 + 14 * 3600) = 2) ∧
    (weekdayOf (get_week_bounds (2 * 86400 + 14 * 3600)).1 = 0 ∧
      (get_week_bounds (2 * 86400 + 14 * 3600)).1 % 86400 = 0 ∧
      (get_week_bounds (2 * 86400 + 14 * 3600)).1 ≤ 2 * 86400 + 14 * 3600 ∧
      2 * 86400 + 14 * 3600 <
        (get_week_bounds (2 * 86400 + 14 * 3600)).1 + 7 * 86400 ∧
      (get_week_bounds (2 * 86400 + 14 * 3600)).2 =
        (get_week_bounds (2 * 86400 + 14 * 3600)).1 + 7 * 86400) :=
  ⟨by decide, c9_week_bounds_wednesday _ (by decide)⟩

/-! ## Preference filter characterization -/

theorem matchesPref_eq_true {hour : Int} {p : String} :
    matchesPref hour p = true ↔
      p = "flexible" ∨ p = "any" ∨
      (p = "morning" ∧ 5 ≤ hour ∧ hour < 12) ∨
      (p = "afternoon" ∧ 12 ≤ hour ∧ hour < 17) ∨
      (p = "evening" ∧ 17 ≤ hour ∧ hour < 22) := by
  simp only [matchesPref, Bool.or_eq_true, decide_eq_true_eq]
  tauto

theorem slotPasses_eq_true {tp : Option TimePref} {dp : Option (List String)}
    {s : TimeSlot} :
    slotPasses tp dp s = true ↔
      (dp = none ∨ dp = some [] ∨ dayNameOf (weekdayOf s.start) ∈ dp.getD []) ∧
      (tp = none ∨ tp = some (.single "") ∨ tp = some (.multi []) ∨
        ∃ p ∈ prefListOf tp, matchesPref (hourOf s.start) p = true) := by
  rw [slotPasses, Bool.and_eq_true]
  constructor
  · rintro ⟨hday, htime⟩
    constructor
    · rcases dp with _ | l
      · exact Or.inl rfl
      · rcases l with _ | ⟨d, ds⟩
        · exact Or.inr (Or.inl rfl)
        · refine Or.inr (Or.inr ?_)
          rw [if_pos (by simp [dayPrefTruthy])] at hday
          simpa using hday
    · rcases tp with _ | tpv
      · exact Or.inl rfl
      · rcases tpv with ps | pl
        · by_cases hps : ps = ""
          · exact Or.inr (Or.inl (by rw [hps]))
          · refine Or.inr (Or.inr (Or.inr ?_))
            rw [if_pos (by simp [timePrefTruthy, hps])] at htime
            simpa [prefListOf, List.any_eq_true] using htime
        · rcases pl with _ | ⟨q, qs⟩
          · exact Or.inr (Or.inr (Or.inl rfl))
          · refine Or.inr (Or.inr (Or.inr ?_))
            rw [if_pos (by simp [timePrefTruthy])] at htime
            simpa [prefListOf, List.any_eq_true] using htime
  · rintro ⟨hday, htime⟩
    constructor
    · rcases hday with rfl | rfl | hmem
      · rfl
      · rfl
      · rcases dp with _ | l
        · rfl
        · rcases l with _ | ⟨d, ds⟩
          · rfl
          · rw [if_pos (by simp [dayPrefTruthy])]
            simpa using hmem
    · rcases htime with rfl | rfl | rfl | hex
      · rfl
      · rfl
      · rfl
      · rcases tp with _ | tpv
        · rfl
        · rcases tpv with ps | pl
          · by_cases hps : ps = ""
            · subst hps
              rw [if_neg (by simp [timePrefTruthy])]
            · rw [if_pos (by simp [timePrefTruthy, hps])]
              simpa [prefListOf, List.any_eq_true] using hex
          · rcases pl with _ | ⟨q, qs⟩
            · rw [if_neg (by simp [timePrefTruthy])]
            · rw [if_pos (by simp [timePrefTruthy])]
              simpa [prefListOf, List.any_eq_true] using hex

/-- C6, counterexample to the claim as stated: with an explicitly empty
day-preference set (`day_preference = []`, which is falsy in Python), the
filter retains a Monday slot even though the slot's day is not a member of
the (empty) preferred-day set, so "retained iff day in the set" fails when
"absent" is read as "not provided". -/
theorem c6_counterexample :
    filter_slots_by_preference [(⟨0, 3600⟩ : TimeSlot)] none (some []) =
      [(⟨0, 3600⟩ : TimeSlot)] ∧
    dayNameOf (weekdayOf 0) ∉ ([] : List String) :=
  ⟨by decide, by decide⟩

/-- C6 (amended): the preference filter retains a slot iff (the day
preference is absent *or empty*, or the slot's day name is in the set) and
(the time preference is absent *or empty*, or some preferred entry is
`"flexible"` or `"any"`, or the slot's start hour lies in that entry's band:
morning `[05, 12)`, afternoon `[12, 17)`, evening `[17, 22)`).  These are
the bands of the `life-os` variant, which this filter comes from. -/
theorem c6_filter_retains_iff (slots : List TimeSlot)
    (time_preference : Option TimePref) (day_preference : Option (List String))
    (s : TimeSlot) :
    s ∈ filter_slots_by_preference slots time_preference day_preference ↔
      s ∈ slots ∧
      (day_preference = none ∨ day_preference = some [] ∨
        dayNameOf (weekdayOf s.start) ∈ day_preference.getD []) ∧
      (time_preference = none ∨ time_preference = some (.single "") ∨
        time_preference = some (.multi []) ∨
        ∃ p ∈ prefListOf time_preference,
          p = "flexible" ∨ p = "any" ∨
          (p = "morning" ∧ 5 ≤ hourOf s.start ∧ hourOf s.start < 12) ∨
          (p = "afternoon" ∧ 12 ≤ hourOf s.start ∧ hourOf s.start < 17) ∨
          (p = "evening" ∧ 17 ≤ hourOf s.start ∧ hourOf s.start < 22)) := by
  have hmp : (∃ p ∈ prefListOf time_preference,
      matchesPref (hourOf s.start) p = true) ↔
      ∃ p ∈ prefListOf time_preference,
        p = "flexible" ∨ p = "any" ∨
        (p = "morning" ∧ 5 ≤ hourOf s.start ∧ hourOf s.start < 12) ∨
        (p = "afternoon" ∧ 12 ≤ hourOf s.start ∧ hourOf s.start < 17) ∨
        (p = "evening" ∧ 17 ≤ hourOf s.start ∧ hourOf s.start < 22) := by
    constructor
    · rintro ⟨p, hp, hm⟩; exact ⟨p, hp, matchesPref_eq_true.mp hm⟩
    · rintro ⟨p, hp, hm⟩; exact ⟨p, hp, matchesPref_eq_true.mpr hm⟩
  rw [filter_slots_by_preference]
  split
  · rename_i hnone
    obtain ⟨h1, h2⟩ := hnone
    subst h1; subst h2
    simp [prefListOf]
  · rw [List.mem_filter, slotPasses_eq_true, hmp]

/-! ## Round trip: proposals fed back into the analyzer -/

/-- The calendar event created from an accepted proposal
(`ScheduleProposal.to_event_body` sets the event's start, end and the
`lifeos_activity_id` extended property to the proposal's activity id). -/
def proposalToEvent (p : ScheduleProposal) : Event :=
  { start := p.start, stop := p.stop, activity_id := some p.activity.id }

theorem matchingEvents_append (A B : List Event) (aid : String) :
    matchingEvents (A ++ B) aid = matchingEvents A aid ++ matchingEvents B aid := by
  simp [matchingEvents]

theorem matchingEvents_proposals (props : List ScheduleProposal) (aid : String) :
    matchingEvents (props.map proposalToEvent) aid =
      (props.filter fun p => decide (p.activity.id = aid)).map proposalToEvent := by
  induction props with
  | nil => rfl
  | cons p ps ih =>
    simp only [List.map_cons, matchingEvents, List.filter_cons] at *
    by_cases h : p.activity.id = aid
    · rw [if_pos (by simp [proposalToEvent, h]), if_pos (by simp [h])]
      simpa [matchingEvents] using congrArg (List.cons (proposalToEvent p)) ih
    · rw [if_neg (by simp [proposalToEvent, h]), if_neg (by simp [h])]
      exact ih

/-- C4: converting the proposals of `propose_schedule` into booked events
tagged with their activity ids and re-running the analyzer counts every
proposal exactly once on top of the previously scheduled sessions, and
yields `sessions_deficit = 0` for every activity whose proposals met its
minimum session target.  (Ids are assumed unique so the list model matches
the Python dict.) -/
theorem c4_round_trip (config : LifeOSConfig) (existing_events : List Event)
    (week_start : Int)
    (_hids : (config.activities.map Activity.id).Nodup) :
    ∀ a ∈ config.activities,
      (matchingEvents (existing_events ++
          (propose_schedule config existing_events week_start).map
            proposalToEvent) a.id).length =
        (matchingEvents existing_events a.id).length +
          ((propose_schedule config existing_events week_start).filter
            fun p => decide (p.activity.id = a.id)).length ∧
      (a.get_frequency_range.1 ≤
          ((matchingEvents existing_events a.id).length : Int) +
            ((propose_schedule config existing_events week_start).filter
              fun p => decide (p.activity.id = a.id)).length →
        ∀ entry ∈ analyze_scheduled_vs_required config
            (existing_events ++
              (propose_schedule config existing_events week_start).map
                proposalToEvent) week_start (week_start + 7 * 86400),
          entry.activity = a → entry.sessions_deficit = 0) := by
  intro a ha
  have hcount : (matchingEvents (existing_events ++
      (propose_schedule config existing_events week_start).map
        proposalToEvent) a.id).length =
      (matchingEvents existing_events a.id).length +
        ((propose_schedule config existing_events week_start).filter
          fun p => decide (p.activity.id = a.id)).length := by
    rw [matchingEvents_append, List.length_append,
      matchingEvents_proposals, List.length_map]
  refine ⟨hcount, fun hmet entry hentry hact => ?_⟩
  simp only [analyze_scheduled_vs_required, calculate_weekly_requirements,
    List.map_map, List.mem_map, Function.comp] at hentry
  obtain ⟨a', _ha', rfl⟩ := hentry
  have haa : a' = a := hact
  show max 0 (a'.get_frequency_range.1 -
      ((matchingEvents (existing_events ++
        (propose_schedule config existing_events week_start).map
          proposalToEvent) a'.id).length : Int)) = 0
  rw [haa]
  omega

/-- Witness for `c4_round_trip`: the two-activity fixture configuration on
an empty calendar; both activities get their one session proposed. -/
theorem c4_witness :
    (cfgAB.activities.map Activity.id).Nodup ∧
    (∀ a ∈ cfgAB.activities,
      (matchingEvents ([] ++
          (propose_schedule cfgAB [] 0).map proposalToEvent) a.id).length =
        (matchingEvents [] a.id).length +
          ((propose_schedule cfgAB [] 0).filter
            fun p => decide (p.activity.id = a.id)).length ∧
      (a.get_frequency_range.1 ≤
          ((matchingEvents [] a.id).length : Int) +
            ((propose_schedule cfgAB [] 0).filter
              fun p => decide (p.activity.id = a.id)).length →
        ∀ entry ∈ analyze_scheduled_vs_required cfgAB
            ([] ++ (propose_schedule cfgAB [] 0).map proposalToEvent)
            0 (0 + 7 * 86400),
          entry.activity = a → entry.sessions_deficit = 0)) :=
  ⟨by decide, c4_round_trip cfgAB [] 0 (by decide)⟩

end LifeOS

namespace Apps

/-!
The `apps` variant (`apps/life-os-agent/src/lifeos/scheduler.py` and
`config.py`).  Dates are day indices from the reference Monday
(`weekday d = d % 7`, `0 = monday`); `datetime.combine(date, time(h, m))` is
`d * 86400 + minutes * 60` with the time of day held in minutes, as parsed
from the validated `"HH:MM"` strings by `start_time` / `end_time`.
`DayOfWeek` values are the weekday indices.
-/

/-- apps `TimeSlot`: start, end and the day tag the availability calculator
attaches. -/
structure TimeSlot where
  start : Int
  stop : Int
  day : Option Int := none
deriving DecidableEq, Repr

/-- apps `TimeSlot.duration_minutes`. -/
def TimeSlot.duration_minutes (s : TimeSlot) : Int :=
  (s.stop - s.start).tdiv 60

/-- apps `ScheduledEvent` (the calendar event dataclass). -/
structure ScheduledEvent where
  id : String
  title : String
  start : Int
  stop : Int
  activity_id : Option String := none
deriving DecidableEq, Repr

/-- apps `WorkTemplate` with its `"HH:MM"` fields already parsed to minutes
of day. -/
structure WorkTemplate where
  days : List Int
  startMinutes : Int
  endMinutes : Int
deriving DecidableEq, Repr

/-- apps `Template` (only the `work` field is read by the scheduler). -/
structure Template where
  work : Option WorkTemplate
deriving DecidableEq, Repr

/-- apps `Commitment` with parsed times. -/
structure Commitment where
  name : String
  day : Int
  startMinutes : Int
  endMinutes : Int
deriving DecidableEq, Repr

/-- The apps configuration fields read by `get_available_slots`. -/
structure LifeOSConfig where
  template : Option Template
  commitments : List Commitment
deriving DecidableEq, Repr

/-- `timestamp.date()` as a day index (floor division). -/
def dateOfTs (t : Int) : Int := t.fdiv 86400

/-- `datetime.combine(current_date, time-of-day-in-minutes)`. -/
def combineDT (d minutes : Int) : Int := d * 86400 + minutes * 60

/-- The synthesized work block
`ScheduledEvent(id=f"work_{date}", title="Work", ...)`. -/
def workBlock (current_date : Int) (w : WorkTemplate) : ScheduledEvent :=
  { id := "work_" ++ toString current_date, title := "Work",
    start := combineDT current_date w.startMinutes,
    stop := combineDT current_date w.endMinutes }

/-- The synthesized commitment block. -/
def commitmentBlock (current_date : Int) (c : Commitment) : ScheduledEvent :=
  { id := "commitment_" ++ c.name ++ "_" ++ toString current_date,
    title := c.name,
    start := combineDT current_date c.startMinutes,
    stop := combineDT current_date c.endMinutes }

/-- All blocks `get_available_slots` appends to `existing_events` while
processing one day: the work block (on configured work days) followed by
the commitments falling on that weekday, in configuration order. -/
def dayBlocks (config : LifeOSConfig) (current_date day : Int) :
    List ScheduledEvent :=
  (match config.template with
    | some t =>
      match t.work with
      | some w => if day ∈ w.days then [workBlock current_date w] else []
      | none => []
    | none => []) ++
  (config.commitments.filter fun c => decide (c.day = day)).map
    (commitmentBlock current_date)

/-- `day_events.sort(key=lambda e: e.start)` comparison. -/
def eventLe (a b : ScheduledEvent) : Prop := a.start ≤ b.start

instance : DecidableRel eventLe := fun a b => Int.decLe a.start b.start

instance : IsTotal ScheduledEvent eventLe := ⟨fun a b => Int.le_total a.start b.start⟩

instance : IsTrans ScheduledEvent eventLe := ⟨fun _ _ _ h1 h2 => le_trans h1 h2⟩

/-- The per-day gap sweep of the apps `get_available_slots`: walk the
(sorted) day events from `day_start`, emit a qualifying gap before each
event whose start exceeds the cursor, advance the cursor by
`max current event.end`, and finally emit the qualifying remainder up to
`day_end`. -/
def daySweep (day_end slot_duration day : Int) :
    List ScheduledEvent → Int → List TimeSlot
  | [], current_time =>
    if current_time < day_end then
      let gap : TimeSlot := { start := current_time, stop := day_end,
                              day := some day }
      if slot_duration ≤ gap.duration_minutes then [gap] else []
    else []
  | event :: rest, current_time =>
    (if current_time < event.start then
      let gap : TimeSlot := { start := current_time, stop := event.start,
                              day := some day }
      if slot_duration ≤ gap.duration_minutes then [gap] else []
    else []) ++
      daySweep day_end slot_duration day rest (max current_time event.stop)

/-- One iteration of the `for day_offset in range(7)` loop of the apps
`get_available_slots`: append the day's work/commitment blocks to the
(caller-supplied, mutated in place) event list, take the events dated on
this day sorted by start, and sweep the hardcoded 06:00-22:00 window. -/
def processDay (config : LifeOSConfig) (week_start slot_duration : Int)
    (day_offset : Nat) (acc : List TimeSlot × List ScheduledEvent) :
    List TimeSlot × List ScheduledEvent :=
  let current_date := week_start + (day_offset : Int)
  let day := current_date % 7
  let events := acc.2 ++ dayBlocks config current_date day
  let day_events :=
    (events.filter fun e => decide (dateOfTs e.start = current_date)).insertionSort
      eventLe
  let day_start := combineDT current_date (6 * 60)
  let day_end := combineDT current_date (22 * 60)
  (acc.1 ++ daySweep day_end slot_duration day day_events day_start, events)

/-- apps `Scheduler.get_available_slots`.  It returns both the available
slots and the event list as mutated by the appends (the Python function
returns only the slots but leaves the caller's list with the appended
blocks). -/
def get_available_slots (config : LifeOSConfig) (week_start : Int)
    (existing_events : List ScheduledEvent) (slot_duration : Int := 30) :
    List TimeSlot × List ScheduledEvent :=
  (List.range 7).foldl
    (fun acc k => processDay config week_start slot_duration k acc)
    ([], existing_events)

/-! ## Event-list mutation (frame effect) -/

/-- The blocks appended over a sequence of day offsets. -/
def allBlocks (config : LifeOSConfig) (week_start : Int) :
    List Nat → List ScheduledEvent
  | [] => []
  | k :: ks =>
    dayBlocks config (week_start + (k : Int)) ((week_start + (k : Int)) % 7) ++
      allBlocks config week_start ks

theorem foldl_events (config : LifeOSConfig) (week_start slot_duration : Int) :
    ∀ (ks : List Nat) (S : List TimeSlot) (E : List ScheduledEvent),
      ((ks.foldl
          (fun acc k => processDay config week_start slot_duration k acc)
          (S, E)).2) = E ++ allBlocks config week_start ks
  | [], _, E => (List.append_nil E).symm
  | k :: ks, S, E => by
    rw [List.foldl_cons]
    have ih := foldl_events config week_start slot_duration ks
      (processDay config week_start slot_duration k (S, E)).1
      (processDay config week_start slot_duration k (S, E)).2
    rw [show ((processDay config week_start slot_duration k (S, E)).1,
        (processDay config week_start slot_duration k (S, E)).2) =
        processDay config week_start slot_duration k (S, E) from rfl] at ih
    rw [ih,
      show (processDay config week_start slot_duration k (S, E)).2 =
        E ++ dayBlocks config (week_start + (k : Int))
          ((week_start + (k : Int)) % 7) from rfl,
      List.append_assoc]
    rfl

/-- Concrete fixture: a configuration with Monday work hours 09:00-17:00. -/
def cfgWork : LifeOSConfig :=
  { template := some
      { work := some { days := [0], startMinutes := 540, endMinutes := 1020 } },
    commitments := [] }

/-- C8, counterexample to the claim as stated: the apps
`get_available_slots` appends the synthesized work block for Monday to the
caller's (initially empty) event list, so after the call the caller's list
no longer contains exactly the events it held before. -/
theorem c8_counterexample :
    (get_available_slots cfgWork 0 []).2 ≠ [] := by decide

/-- C8 (amended): `analyze_scheduled_vs_required` and `propose_schedule`
read the caller's events only (`propose_schedule` passes a copy into the
availability calculator), and the `life-os` variant's operations are pure
reads; but the apps `get_available_slots` appends synthesized
work/commitment blocks to the caller's list.  The original events are still
there, in order, as a prefix: the call only ever appends. -/
theorem c8_events_read_only_prefix (config : LifeOSConfig) (week_start : Int)
    (existing_events : List ScheduledEvent) (slot_duration : Int) :
    ∃ extra,
      (get_available_slots config week_start existing_events slot_duration).2 =
        existing_events ++ extra :=
  ⟨allBlocks config week_start (List.range 7),
    foldl_events config week_start slot_duration (List.range 7) [] existing_events⟩

/-! ## The hardcoded waking window -/

/-- Bounds on every gap the per-day sweep emits: it starts at or after the
cursor, is nonempty, carries the day tag, and ends either at `day_end` or at
the start of one of the day's events. -/
theorem daySweep_bounds {day_end m day : Int} :
    ∀ {L : List ScheduledEvent} {cur : Int} {s : TimeSlot},
      s ∈ daySweep day_end m day L cur →
      cur ≤ s.start ∧ s.start < s.stop ∧ s.day = some day ∧
        (s.stop ≤ day_end ∨ ∃ e ∈ L, s.stop = e.start)
  | [], cur, s, hs => by
    simp only [daySweep] at hs
    split at hs
    · split at hs
      · rcases List.mem_singleton.mp hs with rfl
        exact ⟨le_refl _, by assumption, rfl, Or.inl (le_refl _)⟩
      · exact absurd hs (List.not_mem_nil _)
    · exact absurd hs (List.not_mem_nil _)
  | event :: L, cur, s, hs => by
    simp only [daySweep, List.mem_append] at hs
    rcases hs with hgap | hrec
    · split at hgap
      · split at hgap
        · rcases List.mem_singleton.mp hgap with rfl
          exact ⟨le_refl _, by assumption, rfl,
            Or.inr ⟨event, List.mem_cons_self event L, rfl⟩⟩
        · exact absurd hgap (List.not_mem_nil _)
      · exact absurd hgap (List.not_mem_nil _)
    · obtain ⟨h1, h2, h3, h4⟩ := daySweep_bounds hrec
      refine ⟨le_trans (le_max_left _ _) h1, h2, h3, ?_⟩
      rcases h4 with h | ⟨e, he, hstop⟩
      · exact Or.inl h
      · exact Or.inr ⟨e, List.mem_cons_of_mem event he, hstop⟩

theorem dateOfTs_iff {t d : Int} :
    dateOfTs t = d ↔ d * 86400 ≤ t ∧ t < (d + 1) * 86400 := by
  rw [dateOfTs, Int.fdiv_eq_ediv t (by norm_num : (0:Int) ≤ 86400)]
  omega

/-- Window bounds for every slot produced by the day-offset fold: the slot
belongs to some processed day, starts at or after that day's 06:00, and ends
by 22:00 unless it ends exactly at the start of an event of that day (which
still keeps it before the day's midnight). -/
theorem foldl_slots_window (config : LifeOSConfig)
    (week_start slot_duration : Int) :
    ∀ (ks : List Nat) (S : List TimeSlot) (E : List ScheduledEvent),
      ∀ s ∈ (ks.foldl
          (fun acc k => processDay config week_start slot_duration k acc)
          (S, E)).1,
        s ∈ S ∨ ∃ k : Nat, k ∈ ks ∧
          combineDT (week_start + (k : Int)) (6 * 60) ≤ s.start ∧
          s.start < s.stop ∧
          s.stop < (week_start + (k : Int) + 1) * 86400 ∧
          (s.stop ≤ combineDT (week_start + (k : Int)) (22 * 60) ∨
            ∃ e ∈ (ks.foldl
                (fun acc k => processDay config week_start slot_duration k acc)
                (S, E)).2,
              dateOfTs e.start = week_start + (k : Int) ∧ s.stop = e.start)
  | [], S, E, s, hs => Or.inl hs
  | k :: ks, S, E, s, hs => by
    rw [List.foldl_cons] at hs ⊢
    have hfold := foldl_slots_window config week_start slot_duration ks
      (processDay config week_start slot_duration k (S, E)).1
      (processDay config week_start slot_duration k (S, E)).2 s
    rw [show ((processDay config week_start slot_duration k (S, E)).1,
        (processDay config week_start slot_duration k (S, E)).2) =
        processDay config week_start slot_duration k (S, E) from rfl]
      at hfold
    rcases hfold hs with hS' | ⟨k', hk', h6, hlt, hmid, hrest⟩
    · -- the slot came from this day's sweep or from the initial accumulator
      have hS'' : s ∈ S ++ daySweep (combineDT (week_start + (k : Int)) (22 * 60))
          slot_duration ((week_start + (k : Int)) % 7)
          (((E ++ dayBlocks config (week_start + (k : Int))
              ((week_start + (k : Int)) % 7)).filter fun e =>
            decide (dateOfTs e.start = week_start + (k : Int))).insertionSort
            eventLe)
          (combineDT (week_start + (k : Int)) (6 * 60)) := hS'
      rcases List.mem_append.mp hS'' with hinS | hsweep
      · exact Or.inl hinS
      · obtain ⟨h1, h2, _h3, h4⟩ := daySweep_bounds hsweep
        refine Or.inr ⟨k, List.mem_cons_self k ks, h1, h2, ?_, ?_⟩
        · rcases h4 with h | ⟨e, he, hstop⟩
          · calc s.stop ≤ combineDT (week_start + (k : Int)) (22 * 60) := h
              _ < (week_start + (k : Int) + 1) * 86400 := by
                simp only [combineDT]; omega
          · have he' := (List.perm_insertionSort eventLe _).mem_iff.mp he
            have := (List.mem_filter.mp he').2
            have hdate := of_decide_eq_true this
            rw [hstop]
            exact (dateOfTs_iff.mp hdate).2
        · rcases h4 with h | ⟨e, he, hstop⟩
          · exact Or.inl h
          · have he' := (List.perm_insertionSort eventLe _).mem_iff.mp he
            obtain ⟨hmem, hdec⟩ := List.mem_filter.mp he'
            refine Or.inr ⟨e, ?_, of_decide_eq_true hdec, hstop⟩
            rw [foldl_events]
            exact List.mem_append_left _ hmem
    · exact Or.inr ⟨k', List.mem_cons_of_mem k hk', h6, hlt, hmid, hrest⟩

/-- Concrete fixture: a configuration with no template and no commitments. -/
def cfgNoTemplate : LifeOSConfig := { template := none, commitments := [] }

/-- Concrete fixture: an event on Monday evening 22:30-23:00. -/
def lateEvent : ScheduledEvent :=
  { id := "e", title := "late", start := 81000, stop := 82800 }

/-- C10, counterexample to the claim as stated: with an event starting
Monday 22:30, the apps availability calculator returns the slot
`[06:00, 22:30)` for Monday, whose end lies beyond the 22:00 boundary of
the claimed waking window. -/
theorem c10_counterexample :
    (⟨21600, 81000, some 0⟩ : TimeSlot) ∈
      (get_available_slots cfgNoTemplate 0 [lateEvent]).1 ∧
    ¬ ((⟨21600, 81000, some 0⟩ : TimeSlot).stop ≤ combineDT 0 (22 * 60)) :=
  ⟨by decide, by decide⟩

/-- C10 (amended): every slot returned by the apps `get_available_slots`
belongs to a single calendar day of the requested week: it starts at or
after that day's 06:00, is nonempty, ends strictly before that day's
midnight (never spanning midnight), and ends by 22:00 unless it ends
exactly at the start of an event dated on that day that begins after
22:00. -/
theorem c10_waking_window (config : LifeOSConfig) (week_start : Int)
    (existing_events : List ScheduledEvent) (slot_duration : Int) :
    ∀ s ∈ (get_available_slots config week_start existing_events
        slot_duration).1,
      ∃ k : Nat, k < 7 ∧
        combineDT (week_start + (k : Int)) (6 * 60) ≤ s.start ∧
        s.start < s.stop ∧
        s.stop < (week_start + (k : Int) + 1) * 86400 ∧
        (s.stop ≤ combineDT (week_start + (k : Int)) (22 * 60) ∨
          ∃ e ∈ (get_available_slots config week_start existing_events
              slot_duration).2,
            dateOfTs e.start = week_start + (k : Int) ∧ s.stop = e.start) := by
  intro s hs
  rcases foldl_slots_window config week_start slot_duration (List.range 7) []
      existing_events s hs with h | ⟨k, hk, h6, hlt, hmid, hrest⟩
  · exact absurd h (List.not_mem_nil s)
  · exact ⟨k, List.mem_range.mp hk, h6, hlt, hmid, hrest⟩

/-! ## Determinism of a second run

The apps `get_available_slots` mutates its input list, so "running it twice
on the same inputs" means the second run receives the list as left by the
first.  The sweep's output only depends, per start value, on the presence
and maximal end of the busy intervals starting there, which appending
duplicate blocks does not change; the lemmas below make that precise.
-/

/-- Maximum of a list of ends (`none` for the empty list). -/
def listMax? : List Int → Option Int
  | [] => none
  | x :: xs =>
    match listMax? xs with
    | none => some x
    | some y => some (max x y)

/-- Merge of two optional maxima. -/
def omax : Option Int → Option Int → Option Int
  | none, b => b
  | some x, none => some x
  | some x, some y => some (max x y)

theorem listMax?_cons (x : Int) (l : List Int) :
    listMax? (x :: l) = omax (some x) (listMax? l) := by
  cases h : listMax? l <;> simp [listMax?, omax, h]

theorem omax_assoc (a b c : Option Int) :
    omax (omax a b) c = omax a (omax b c) := by
  cases a <;> cases b <;> cases c <;> simp [omax, max_assoc]

theorem omax_comm (a b : Option Int) : omax a b = omax b a := by
  cases a <;> cases b <;> simp [omax, max_comm]

theorem omax_absorb (a b : Option Int) : omax (omax a b) b = omax a b := by
  cases a <;> cases b <;> simp [omax, max_assoc, max_self]

theorem listMax?_append (l1 l2 : List Int) :
    listMax? (l1 ++ l2) = omax (listMax? l1) (listMax? l2) := by
  induction l1 with
  | nil => simp [listMax?, omax]
  | cons x xs ih => rw [List.cons_append, listMax?_cons, listMax?_cons, ih,
      omax_assoc]

theorem listMax?_perm {l1 l2 : List Int} (h : l1.Perm l2) :
    listMax? l1 = listMax? l2 := by
  induction h with
  | nil => rfl
  | cons x _ ih => rw [listMax?_cons, listMax?_cons, ih]
  | swap x y l =>
    rw [listMax?_cons, listMax?_cons, listMax?_cons, listMax?_cons,
      ← omax_assoc, ← omax_assoc, omax_comm (some y) (some x)]
  | trans _ _ ih1 ih2 => rw [ih1, ih2]

theorem listMax?_eq_none {l : List Int} : listMax? l = none ↔ l = [] := by
  cases l with
  | nil => simp [listMax?]
  | cons x xs => rw [listMax?_cons]; cases h : listMax? xs <;> simp [omax]

/-- The ends of the events of `L` whose start is `c`. -/
def endsAt (L : List ScheduledEvent) (c : Int) : List Int :=
  (L.filter fun e => decide (e.start = c)).map fun e => e.stop

/-- The per-start signature of a busy list: the maximal end among events
starting at `c`, if any. -/
def sig (L : List ScheduledEvent) (c : Int) : Option Int := listMax? (endsAt L c)

theorem endsAt_append (l1 l2 : List ScheduledEvent) (c : Int) :
    endsAt (l1 ++ l2) c = endsAt l1 c ++ endsAt l2 c := by
  simp [endsAt]

theorem endsAt_cons (e : ScheduledEvent) (L : List ScheduledEvent) (c : Int) :
    endsAt (e :: L) c =
      if e.start = c then e.stop :: endsAt L c else endsAt L c := by
  by_cases h : e.start = c
  · simp [endsAt, List.filter_cons, h]
  · simp [endsAt, List.filter_cons, h]

theorem sig_append_dup (A B : List ScheduledEvent) (c : Int) :
    sig (A ++ B ++ B) c = sig (A ++ B) c := by
  simp only [sig, endsAt_append, listMax?_append]
  exact omax_absorb _ _

theorem sig_perm {L1 L2 : List ScheduledEvent} (h : L1.Perm L2) (c : Int) :
    sig L1 c = sig L2 c :=
  listMax?_perm ((h.filter _).map _)

theorem sig_eq_none {L : List ScheduledEvent} {c : Int} :
    sig L c = none ↔ ∀ e ∈ L, e.start ≠ c := by
  rw [sig, listMax?_eq_none, endsAt, List.map_eq_nil_iff,
    List.filter_eq_nil_iff]
  simp

/-- Fold of `max` with a base: the cursor joined with a group's ends. -/
def foldMax (a : Int) (l : List Int) : Int := l.foldr max a

theorem foldMax_eq_listMax? (a : Int) (l : List Int) :
    foldMax a l = match listMax? l with | none => a | some v => max a v := by
  induction l with
  | nil => simp [foldMax, listMax?]
  | cons x xs ih =>
    rw [foldMax, List.foldr_cons,
      show List.foldr max a xs = foldMax a xs from rfl, ih, listMax?_cons]
    cases h : listMax? xs
    · simp only [omax]
      exact max_comm x a
    · simp only [omax]
      exact max_left_comm x a _

theorem foldMax_congr {a : Int} {l1 l2 : List Int}
    (h : listMax? l1 = listMax? l2) : foldMax a l1 = foldMax a l2 := by
  rw [foldMax_eq_listMax?, foldMax_eq_listMax?, h]

theorem foldMax_cons (a v : Int) (l : List Int) :
    foldMax a (v :: l) = foldMax (max a v) l := by
  rw [foldMax_eq_listMax?, foldMax_eq_listMax?, listMax?_cons]
  cases h : listMax? l
  · simp only [omax]
  · simp only [omax]
    exact (max_assoc a v _).symm

/-- Key determinism lemma: two sorted, well-formed day lists that agree on
which starts occur and on the maximal end per start produce identical
sweeps.  `c0` is a lower bound on every start and both cursors, and the last
hypothesis says the cursors joined with the remaining `c0`-group maxima
agree; the induction consumes the lists one event at a time. -/
theorem daySweep_sig (day_end m day : Int) :
    ∀ (n : Nat) (L1 L2 : List ScheduledEvent) (cur1 cur2 c0 : Int),
      L1.length + L2.length ≤ n →
      L1.Sorted eventLe → L2.Sorted eventLe →
      (∀ e ∈ L1, e.start ≤ e.stop) → (∀ e ∈ L2, e.start ≤ e.stop) →
      (∀ e ∈ L1, c0 ≤ e.start) → (∀ e ∈ L2, c0 ≤ e.start) →
      c0 ≤ cur1 → c0 ≤ cur2 →
      (∀ c, c ≠ c0 → sig L1 c = sig L2 c) →
      foldMax cur1 (endsAt L1 c0) = foldMax cur2 (endsAt L2 c0) →
      daySweep day_end m day L1 cur1 = daySweep day_end m day L2 cur2 := by
  intro n
  induction n with
  | zero =>
    intro L1 L2 cur1 cur2 c0 hlen _ _ _ _ _ _ _ _ _ hfold
    have h1 : L1 = [] := List.length_eq_zero.mp (by omega)
    have h2 : L2 = [] := List.length_eq_zero.mp (by omega)
    subst h1; subst h2
    have : cur1 = cur2 := by simpa [endsAt, foldMax] using hfold
    rw [this]
  | succ n ih =>
    intro L1 L2 cur1 cur2 c0 hlen hs1 hs2 hw1 hw2 hb1 hb2 hc1 hc2 hsig hfold
    rcases L1 with _ | ⟨x, M1⟩
    · rcases L2 with _ | ⟨y, M2⟩
      · have : cur1 = cur2 := by simpa [endsAt, foldMax] using hfold
        rw [this]
      · by_cases hy : y.start = c0
        · -- consume `y` (its start is `c0 ≤ cur2`, so no gap is emitted)
          have hred : daySweep day_end m day (y :: M2) cur2 =
              daySweep day_end m day M2 (max cur2 y.stop) := by
            simp only [daySweep]
            rw [if_neg (by omega : ¬ cur2 < y.start), List.nil_append]
          rw [hred]
          refine ih [] M2 cur1 (max cur2 y.stop) c0 (by simp at hlen ⊢; omega)
            hs1 hs2.of_cons hw1
            (fun e he => hw2 e (List.mem_cons_of_mem y he))
            hb1 (fun e he => hb2 e (List.mem_cons_of_mem y he))
            hc1 (le_trans hc2 (le_max_left _ _)) ?_ ?_
          · intro c hc
            rw [hsig c hc, sig, sig, endsAt_cons, if_neg (by omega : ¬ y.start = c)]
          · rw [hfold, endsAt_cons, if_pos hy, foldMax_cons]
        · -- `L1` is empty but `L2` still has an event: its start would have
          -- to occur in `L1` as well, contradiction
          exfalso
          have hempty : sig ([] : List ScheduledEvent) y.start = none := by
            rw [sig_eq_none]; intro e he; exact absurd he (List.not_mem_nil e)
          have := (hsig y.start hy).symm.trans hempty
          rw [sig_eq_none] at this
          exact this y (List.mem_cons_self y M2) rfl
    · by_cases hx : x.start = c0
      · -- consume `x`
        have hred : daySweep day_end m day (x :: M1) cur1 =
            daySweep day_end m day M1 (max cur1 x.stop) := by
          simp only [daySweep]
          rw [if_neg (by omega : ¬ cur1 < x.start), List.nil_append]
        rw [hred]
        refine ih M1 L2 (max cur1 x.stop) cur2 c0 (by simp at hlen ⊢; omega)
          hs1.of_cons hs2
          (fun e he => hw1 e (List.mem_cons_of_mem x he)) hw2
          (fun e he => hb1 e (List.mem_cons_of_mem x he)) hb2
          (le_trans hc1 (le_max_left _ _)) hc2 ?_ ?_
        · intro c hc
          rw [← hsig c hc, sig, sig, endsAt_cons, if_neg (by omega : ¬ x.start = c)]
        · rw [← hfold, endsAt_cons, if_pos hx, foldMax_cons]
      · rcases L2 with _ | ⟨y, M2⟩
        · exfalso
          have hempty : sig ([] : List ScheduledEvent) x.start = none := by
            rw [sig_eq_none]; intro e he; exact absurd he (List.not_mem_nil e)
          have := (hsig x.start hx).trans hempty
          rw [sig_eq_none] at this
          exact this x (List.mem_cons_self x M1) rfl
        · by_cases hy : y.start = c0
          · -- consume `y`
            have hred : daySweep day_end m day (y :: M2) cur2 =
                daySweep day_end m day M2 (max cur2 y.stop) := by
              simp only [daySweep]
              rw [if_neg (by omega : ¬ cur2 < y.start), List.nil_append]
            rw [hred]
            refine ih (x :: M1) M2 cur1 (max cur2 y.stop) c0
              (by simp at hlen ⊢; omega)
              hs1 hs2.of_cons hw1
              (fun e he => hw2 e (List.mem_cons_of_mem y he))
              hb1 (fun e he => hb2 e (List.mem_cons_of_mem y he))
              hc1 (le_trans hc2 (le_max_left _ _)) ?_ ?_
            · intro c hc
              rw [hsig c hc, sig, sig, endsAt_cons,
                if_neg (by omega : ¬ y.start = c)]
            · rw [hfold, endsAt_cons, if_pos hy, foldMax_cons]
          · -- both heads start a fresh group strictly above `c0`
            have hxc0 := hb1 x (List.mem_cons_self x M1)
            have hyc0 := hb2 y (List.mem_cons_self y M2)
            have hall1 : ∀ e ∈ x :: M1, e.start ≠ c0 := by
              intro e he
              rcases List.mem_cons.mp he with rfl | he'
              · exact hx
              · have h1 := List.rel_of_sorted_cons hs1 e he'
                simp only [eventLe] at h1
                omega
            have hall2 : ∀ e ∈ y :: M2, e.start ≠ c0 := by
              intro e he
              rcases List.mem_cons.mp he with rfl | he'
              · exact hy
              · have h1 := List.rel_of_sorted_cons hs2 e he'
                simp only [eventLe] at h1
                omega
            have he1 : endsAt (x :: M1) c0 = [] := by
              rw [endsAt, List.filter_eq_nil_iff.mpr]
              · rfl
              · intro e he
                simpa using hall1 e he
            have he2 : endsAt (y :: M2) c0 = [] := by
              rw [endsAt, List.filter_eq_nil_iff.mpr]
              · rfl
              · intro e he
                simpa using hall2 e he
            have hcur : cur1 = cur2 := by
              simpa [foldMax, he1, he2] using hfold
            have hsig' : ∀ c, sig (x :: M1) c = sig (y :: M2) c := by
              intro c
              by_cases hcc : c = c0
              · subst hcc
                rw [sig_eq_none.mpr hall1, sig_eq_none.mpr hall2]
              · exact hsig c hcc
            have hxy : x.start = y.start := by
              have h1 : ∃ e ∈ y :: M2, e.start = x.start := by
                by_contra hcon
                push_neg at hcon
                have hnone : sig (x :: M1) x.start = none := by
                  rw [hsig' x.start]
                  exact sig_eq_none.mpr hcon
                exact (sig_eq_none.mp hnone) x (List.mem_cons_self x M1) rfl
              have h2 : ∃ e ∈ x :: M1, e.start = y.start := by
                by_contra hcon
                push_neg at hcon
                have hnone : sig (y :: M2) y.start = none := by
                  rw [← hsig' y.start]
                  exact sig_eq_none.mpr hcon
                exact (sig_eq_none.mp hnone) y (List.mem_cons_self y M2) rfl
              obtain ⟨e, he, hes⟩ := h1
              obtain ⟨f, hf, hfs⟩ := h2
              have hyx : y.start ≤ x.start := by
                rcases List.mem_cons.mp he with rfl | he'
                · omega
                · have := List.rel_of_sorted_cons hs2 e he'
                  simp only [eventLe] at this
                  omega
              have hxy' : x.start ≤ y.start := by
                rcases List.mem_cons.mp hf with rfl | hf'
                · omega
                · have := List.rel_of_sorted_cons hs1 f hf'
                  simp only [eventLe] at this
                  omega
              omega
            have hwx := hw1 x (List.mem_cons_self x M1)
            have hwy := hw2 y (List.mem_cons_self y M2)
            simp only [daySweep]
            rw [hcur, hxy]
            congr 1
            refine ih M1 M2 (max cur2 x.stop) (max cur2 y.stop) y.start
              (by simp at hlen ⊢; omega)
              hs1.of_cons hs2.of_cons
              (fun e he => hw1 e (List.mem_cons_of_mem x he))
              (fun e he => hw2 e (List.mem_cons_of_mem y he))
              ?_ ?_ ?_ ?_ ?_ ?_
            · intro e he
              have := List.rel_of_sorted_cons hs1 e he
              simp only [eventLe] at this
              omega
            · intro e he
              have := List.rel_of_sorted_cons hs2 e he
              simp only [eventLe] at this
              omega
            · omega
            · omega
            · intro c hc
              have h1 : sig M1 c = sig (x :: M1) c := by
                rw [sig, sig, endsAt_cons, if_neg (by omega : ¬ x.start = c)]
              have h2 : sig M2 c = sig (y :: M2) c := by
                rw [sig, sig, endsAt_cons, if_neg (by omega : ¬ y.start = c)]
              rw [h1, h2, hsig' c]
            · have hstep1 : foldMax (max cur2 x.stop) (endsAt M1 y.start) =
                  foldMax cur2 (endsAt (x :: M1) y.start) := by
                rw [endsAt_cons, if_pos hxy, foldMax_cons]
              have hstep2 : foldMax (max cur2 y.stop) (endsAt M2 y.start) =
                  foldMax cur2 (endsAt (y :: M2) y.start) := by
                rw [endsAt_cons, if_pos rfl, foldMax_cons]
              rw [hstep1, hstep2]
              exact foldMax_congr (hsig' y.start)

/-- Witness for `c10_waking_window` at the late-event fixture: the Monday
slot `[06:00, 22:30)` satisfies the amended window bounds. -/
theorem c10_witness :
    ((⟨21600, 81000, some 0⟩ : TimeSlot) ∈
        (get_available_slots cfgNoTemplate 0 [lateEvent] 30).1) ∧
    (∃ k : Nat, k < 7 ∧
      combineDT (0 + (k : Int)) (6 * 60) ≤
        (⟨21600, 81000, some 0⟩ : TimeSlot).start ∧
      (⟨21600, 81000, some 0⟩ : TimeSlot).start <
        (⟨21600, 81000, some 0⟩ : TimeSlot).stop ∧
      (⟨21600, 81000, some 0⟩ : TimeSlot).stop < (0 + (k : Int) + 1) * 86400 ∧
      ((⟨21600, 81000, some 0⟩ : TimeSlot).stop ≤
          combineDT (0 + (k : Int)) (22 * 60) ∨
        ∃ e ∈ (get_available_slots cfgNoTemplate 0 [lateEvent] 30).2,
          dateOfTs e.start = 0 + (k : Int) ∧
            (⟨21600, 81000, some 0⟩ : TimeSlot).stop = e.start)) :=
  ⟨by decide,
    c10_waking_window cfgNoTemplate 0 [lateEvent] 30 _ (by decide)⟩

theorem foldrMin_le_base (cur : Int) (l : List Int) : l.foldr min cur ≤ cur := by
  induction l with
  | nil => exact le_refl _
  | cons x xs ih => exact le_trans (min_le_right _ _) ih

theorem foldrMin_le_mem {x : Int} {l : List Int} (h : x ∈ l) (cur : Int) :
    l.foldr min cur ≤ x := by
  induction l with
  | nil => exact absurd h (List.not_mem_nil x)
  | cons y ys ih =>
    rcases List.mem_cons.mp h with rfl | h'
    · exact min_le_left _ _
    · exact le_trans (min_le_right _ _) (ih h')

/-- Sweeping the sorted day list is unchanged when a block of events is
present twice: only the set of starts and the maximal end per start
matter. -/
theorem daySweep_sorted_dup (day_end m day cur : Int)
    (A B : List ScheduledEvent)
    (hwfA : ∀ e ∈ A, e.start ≤ e.stop) (hwfB : ∀ e ∈ B, e.start ≤ e.stop) :
    daySweep day_end m day ((A ++ B ++ B).insertionSort eventLe) cur =
      daySweep day_end m day ((A ++ B).insertionSort eventLe) cur := by
  have hmemABB : ∀ e ∈ A ++ B ++ B, e.start ≤ e.stop := by
    intro e he
    rcases List.mem_append.mp he with h | h
    · rcases List.mem_append.mp h with h' | h'
      · exact hwfA e h'
      · exact hwfB e h'
    · exact hwfB e h
  have hperm1 := List.perm_insertionSort eventLe (A ++ B ++ B)
  have hperm2 := List.perm_insertionSort eventLe (A ++ B)
  have hsub : ∀ e ∈ (A ++ B).insertionSort eventLe, e ∈ A ++ B ++ B := by
    intro e he
    exact List.mem_append_left B (hperm2.mem_iff.mp he)
  have hsigfull : ∀ c, sig ((A ++ B ++ B).insertionSort eventLe) c =
      sig ((A ++ B).insertionSort eventLe) c := by
    intro c
    rw [sig_perm hperm1 c, sig_perm hperm2 c]
    exact sig_append_dup A B c
  apply daySweep_sig day_end m day
    (((A ++ B ++ B).insertionSort eventLe).length +
      ((A ++ B).insertionSort eventLe).length)
    _ _ cur cur (((A ++ B ++ B).map (fun e => e.start)).foldr min cur)
    (le_refl _)
    (List.sorted_insertionSort eventLe _) (List.sorted_insertionSort eventLe _)
  · intro e he
    exact hmemABB e (hperm1.mem_iff.mp he)
  · intro e he
    exact hmemABB e (hsub e he)
  · intro e he
    exact foldrMin_le_mem
      (List.mem_map.mpr ⟨e, hperm1.mem_iff.mp he, rfl⟩) cur
  · intro e he
    exact foldrMin_le_mem (List.mem_map.mpr ⟨e, hsub e he, rfl⟩) cur
  · exact foldrMin_le_base _ _
  · exact foldrMin_le_base _ _
  · intro c _
    exact hsigfull c
  · exact foldMax_congr (hsigfull _)

/-- The appended blocks are well-formed intervals dated on their own day,
provided the configured times are valid minutes-of-day with start before
end. -/
theorem dayBlocks_wf (config : LifeOSConfig) (d day : Int)
    (hw : ∀ t ∈ config.template.toList, ∀ w ∈ t.work.toList,
      0 ≤ w.startMinutes ∧ w.startMinutes ≤ w.endMinutes ∧ w.endMinutes < 1440)
    (hcm : ∀ c ∈ config.commitments,
      0 ≤ c.startMinutes ∧ c.startMinutes ≤ c.endMinutes ∧ c.endMinutes < 1440) :
    ∀ e ∈ dayBlocks config d day, e.start ≤ e.stop ∧ dateOfTs e.start = d := by
  intro e he
  rw [dayBlocks, List.mem_append] at he
  rcases he with hwork | hcomm
  · rcases htm : config.template with _ | t
    · simp only [htm] at hwork
      exact absurd hwork (List.not_mem_nil e)
    · rcases hwk : t.work with _ | w
      · simp only [htm, hwk] at hwork
        exact absurd hwork (List.not_mem_nil e)
      · simp only [htm, hwk] at hwork
        obtain ⟨h0, h1, h2⟩ := hw t (by rw [htm]; exact List.mem_singleton_self t)
          w (by rw [hwk]; exact List.mem_singleton_self w)
        split at hwork
        · rcases List.mem_singleton.mp hwork with rfl
          constructor
          · simp only [workBlock, combineDT]
            omega
          · rw [show (workBlock d w).start = combineDT d w.startMinutes from rfl,
              dateOfTs_iff, combineDT]
            constructor <;> omega
        · exact absurd hwork (List.not_mem_nil e)
  · obtain ⟨c, hc, rfl⟩ := List.mem_map.mp hcomm
    obtain ⟨h0, h1, h2⟩ := hcm c (List.mem_filter.mp hc).1
    constructor
    · simp only [commitmentBlock, combineDT]
      omega
    · rw [show (commitmentBlock d c).start = combineDT d c.startMinutes from rfl,
        dateOfTs_iff, combineDT]
      constructor <;> omega

theorem allBlocks_mem {config : LifeOSConfig} {week_start : Int} :
    ∀ {ks : List Nat} {e : ScheduledEvent}, e ∈ allBlocks config week_start ks →
      ∃ k ∈ ks, e ∈ dayBlocks config (week_start + (k : Int))
        ((week_start + (k : Int)) % 7)
  | [], e, he => absurd he (List.not_mem_nil e)
  | k :: ks, e, he => by
    simp only [allBlocks, List.mem_append] at he
    rcases he with h | h
    · exact ⟨k, List.mem_cons_self k ks, h⟩
    · obtain ⟨j, hj, hjm⟩ := allBlocks_mem h
      exact ⟨j, List.mem_cons_of_mem k hj, hjm⟩

theorem dayBlocks_filter_self (config : LifeOSConfig) (d day : Int)
    (hw : ∀ t ∈ config.template.toList, ∀ w ∈ t.work.toList,
      0 ≤ w.startMinutes ∧ w.startMinutes ≤ w.endMinutes ∧ w.endMinutes < 1440)
    (hcm : ∀ c ∈ config.commitments,
      0 ≤ c.startMinutes ∧ c.startMinutes ≤ c.endMinutes ∧ c.endMinutes < 1440) :
    (dayBlocks config d day).filter
      (fun e => decide (dateOfTs e.start = d)) = dayBlocks config d day :=
  List.filter_eq_self.mpr fun e he =>
    decide_eq_true (dayBlocks_wf config d day hw hcm e he).2

theorem dayBlocks_filter_other (config : LifeOSConfig) (d day d' : Int)
    (hne : d' ≠ d)
    (hw : ∀ t ∈ config.template.toList, ∀ w ∈ t.work.toList,
      0 ≤ w.startMinutes ∧ w.startMinutes ≤ w.endMinutes ∧ w.endMinutes < 1440)
    (hcm : ∀ c ∈ config.commitments,
      0 ≤ c.startMinutes ∧ c.startMinutes ≤ c.endMinutes ∧ c.endMinutes < 1440) :
    (dayBlocks config d day).filter
      (fun e => decide (dateOfTs e.start = d')) = [] :=
  List.filter_eq_nil_iff.mpr fun e he => by
    have := (dayBlocks_wf config d day hw hcm e he).2
    simp only [decide_eq_true_eq]
    omega

theorem allBlocks_wf (config : LifeOSConfig) (week_start : Int)
    (hw : ∀ t ∈ config.template.toList, ∀ w ∈ t.work.toList,
      0 ≤ w.startMinutes ∧ w.startMinutes ≤ w.endMinutes ∧ w.endMinutes < 1440)
    (hcm : ∀ c ∈ config.commitments,
      0 ≤ c.startMinutes ∧ c.startMinutes ≤ c.endMinutes ∧ c.endMinutes < 1440) :
    ∀ (ks : List Nat), ∀ e ∈ allBlocks config week_start ks, e.start ≤ e.stop
  | [], e, he => absurd he (List.not_mem_nil e)
  | k :: ks, e, he => by
    simp only [allBlocks, List.mem_append] at he
    rcases he with h | h
    · exact (dayBlocks_wf config _ _ hw hcm e h).1
    · exact allBlocks_wf config week_start hw hcm ks e h

theorem allBlocks_filter_eq (config : LifeOSConfig) (week_start : Int)
    (hw : ∀ t ∈ config.template.toList, ∀ w ∈ t.work.toList,
      0 ≤ w.startMinutes ∧ w.startMinutes ≤ w.endMinutes ∧ w.endMinutes < 1440)
    (hcm : ∀ c ∈ config.commitments,
      0 ≤ c.startMinutes ∧ c.startMinutes ≤ c.endMinutes ∧ c.endMinutes < 1440) :
    ∀ (ks : List Nat), ks.Nodup → ∀ k ∈ ks,
      (allBlocks config week_start ks).filter
        (fun e => decide (dateOfTs e.start = week_start + (k : Int))) =
      dayBlocks config (week_start + (k : Int)) ((week_start + (k : Int)) % 7)
  | [], _, k, hk => absurd hk (List.not_mem_nil k)
  | j :: ks, hnd, k, hk => by
    simp only [allBlocks, List.filter_append]
    rcases List.mem_cons.mp hk with rfl | hk'
    · rw [dayBlocks_filter_self config _ _ hw hcm]
      have hnil : (allBlocks config week_start ks).filter
          (fun e => decide (dateOfTs e.start = week_start + (k : Int))) = [] := by
        apply List.filter_eq_nil_iff.mpr
        intro e he
        obtain ⟨j', hj', hjm⟩ := allBlocks_mem he
        have hdate := (dayBlocks_wf config _ _ hw hcm e hjm).2
        have : j' ≠ k := fun h => (List.nodup_cons.mp hnd).1 (h ▸ hj')
        simp only [decide_eq_true_eq]
        have : (j' : Int) ≠ (k : Int) := by exact_mod_cast this
        omega
      rw [hnil, List.append_nil]
    · have hjk : j ≠ k := fun h => (List.nodup_cons.mp hnd).1 (h ▸ hk')
      have hjk' : (week_start + (k : Int)) ≠ (week_start + (j : Int)) := by
        have : (j : Int) ≠ (k : Int) := by exact_mod_cast hjk
        omega
      rw [dayBlocks_filter_other config _ _ _ hjk' hw hcm, List.nil_append]
      exact allBlocks_filter_eq config week_start hw hcm ks
        (List.nodup_cons.mp hnd).2 k hk'

/-- The slot output of the day-offset fold is unchanged when the second
event list carries, for each day still to be processed, exactly one extra
copy of that day's synthesized blocks. -/
theorem foldl_run_rel (config : LifeOSConfig) (week_start m : Int)
    (hw : ∀ t ∈ config.template.toList, ∀ w ∈ t.work.toList,
      0 ≤ w.startMinutes ∧ w.startMinutes ≤ w.endMinutes ∧ w.endMinutes < 1440)
    (hcm : ∀ c ∈ config.commitments,
      0 ≤ c.startMinutes ∧ c.startMinutes ≤ c.endMinutes ∧ c.endMinutes < 1440) :
    ∀ (ks : List Nat), ks.Nodup →
    ∀ (S : List TimeSlot) (E1 E2 : List ScheduledEvent),
      (∀ e ∈ E1, e.start ≤ e.stop) → (∀ e ∈ E2, e.start ≤ e.stop) →
      (∀ k ∈ ks, E2.filter
          (fun e => decide (dateOfTs e.start = week_start + (k : Int))) =
        E1.filter (fun e => decide (dateOfTs e.start = week_start + (k : Int)))
          ++ dayBlocks config (week_start + (k : Int))
            ((week_start + (k : Int)) % 7)) →
      (ks.foldl (fun acc k => processDay config week_start m k acc)
          (S, E1)).1 =
        (ks.foldl (fun acc k => processDay config week_start m k acc)
          (S, E2)).1
  | [], _, S, E1, E2, _, _, _ => rfl
  | k :: ks, hnd, S, E1, E2, hw1, hw2, hrel => by
    rw [List.foldl_cons, List.foldl_cons]
    have hBwf : ∀ e ∈ dayBlocks config (week_start + (k : Int))
        ((week_start + (k : Int)) % 7), e.start ≤ e.stop :=
      fun e he => (dayBlocks_wf config _ _ hw hcm e he).1
    have hBdate : ∀ e ∈ dayBlocks config (week_start + (k : Int))
        ((week_start + (k : Int)) % 7),
        dateOfTs e.start = week_start + (k : Int) :=
      fun e he => (dayBlocks_wf config _ _ hw hcm e he).2
    have hBf := dayBlocks_filter_self config (week_start + (k : Int))
      ((week_start + (k : Int)) % 7) hw hcm
    have hdayeq : daySweep (combineDT (week_start + (k : Int)) (22 * 60)) m
        ((week_start + (k : Int)) % 7)
        (((E2 ++ dayBlocks config (week_start + (k : Int))
            ((week_start + (k : Int)) % 7)).filter fun e =>
          decide (dateOfTs e.start = week_start + (k : Int))).insertionSort
          eventLe)
        (combineDT (week_start + (k : Int)) (6 * 60)) =
      daySweep (combineDT (week_start + (k : Int)) (22 * 60)) m
        ((week_start + (k : Int)) % 7)
        (((E1 ++ dayBlocks config (week_start + (k : Int))
            ((week_start + (k : Int)) % 7)).filter fun e =>
          decide (dateOfTs e.start = week_start + (k : Int))).insertionSort
          eventLe)
        (combineDT (week_start + (k : Int)) (6 * 60)) := by
      rw [List.filter_append, List.filter_append, hBf,
        hrel k (List.mem_cons_self k ks)]
      exact daySweep_sorted_dup _ _ _ _
        (E1.filter fun e => decide (dateOfTs e.start = week_start + (k : Int)))
        (dayBlocks config (week_start + (k : Int))
          ((week_start + (k : Int)) % 7))
        (fun e he => hw1 e (List.mem_filter.mp he).1) hBwf
    have hfst : (processDay config week_start m k (S, E2)).1 =
        (processDay config week_start m k (S, E1)).1 :=
      congrArg (fun l => S ++ l) hdayeq
    have hstep1 : processDay config week_start m k (S, E1) =
        ((processDay config week_start m k (S, E1)).1,
          E1 ++ dayBlocks config (week_start + (k : Int))
            ((week_start + (k : Int)) % 7)) := rfl
    have hstep2 : processDay config week_start m k (S, E2) =
        ((processDay config week_start m k (S, E1)).1,
          E2 ++ dayBlocks config (week_start + (k : Int))
            ((week_start + (k : Int)) % 7)) := by
      rw [← hfst]
      rfl
    rw [hstep2, hstep1]
    refine foldl_run_rel config week_start m hw hcm ks
      (List.nodup_cons.mp hnd).2
      ((processDay config week_start m k (S, E1)).1)
      (E1 ++ dayBlocks config (week_start + (k : Int))
        ((week_start + (k : Int)) % 7))
      (E2 ++ dayBlocks config (week_start + (k : Int))
        ((week_start + (k : Int)) % 7))
      ?_ ?_ ?_
    · intro e he
      rcases List.mem_append.mp he with h | h
      · exact hw1 e h
      · exact hBwf e h
    · intro e he
      rcases List.mem_append.mp he with h | h
      · exact hw2 e h
      · exact hBwf e h
    · intro k' hk'
      have hkk : k ≠ k' := fun h => (List.nodup_cons.mp hnd).1 (h ▸ hk')
      have hdd : (week_start + (k' : Int)) ≠ (week_start + (k : Int)) := by
        have : (k : Int) ≠ (k' : Int) := by exact_mod_cast hkk
        omega
      have hBother := dayBlocks_filter_other config (week_start + (k : Int))
        ((week_start + (k : Int)) % 7) (week_start + (k' : Int)) hdd hw hcm
      rw [List.filter_append, List.filter_append, hBother, List.append_nil,
        List.append_nil, hrel k' (List.mem_cons_of_mem k hk')]

/-- C7: running the apps availability calculator a second time, immediately
after a first run on the same (now mutated) event list, returns the same
slot list, provided events are well-formed intervals and the configured
work/commitment times are valid minutes-of-day with start at or before end.
The first run leaves the list with synthesized blocks appended; the sweep
only depends on which starts occur and on the maximal end per start, which
the duplicate blocks do not change.  (The `life-os` variant's calculator
does not mutate anything, so its determinism is definitional.) -/
theorem c7_second_run (config : LifeOSConfig) (week_start m : Int)
    (existing_events : List ScheduledEvent)
    (hwfE : ∀ e ∈ existing_events, e.start ≤ e.stop)
    (hw : ∀ t ∈ config.template.toList, ∀ w ∈ t.work.toList,
      0 ≤ w.startMinutes ∧ w.startMinutes ≤ w.endMinutes ∧ w.endMinutes < 1440)
    (hcm : ∀ c ∈ config.commitments,
      0 ≤ c.startMinutes ∧ c.startMinutes ≤ c.endMinutes ∧ c.endMinutes < 1440) :
    (get_available_slots config week_start
        ((get_available_slots config week_start existing_events m).2) m).1 =
      (get_available_slots config week_start existing_events m).1 := by
  have h2 : (get_available_slots config week_start existing_events m).2 =
      existing_events ++ allBlocks config week_start (List.range 7) :=
    foldl_events config week_start m (List.range 7) [] existing_events
  rw [h2]
  refine (foldl_run_rel config week_start m hw hcm (List.range 7)
    (List.nodup_range 7) [] existing_events
    (existing_events ++ allBlocks config week_start (List.range 7))
    hwfE ?_ ?_).symm
  · intro e he
    rcases List.mem_append.mp he with h | h
    · exact hwfE e h
    · exact allBlocks_wf config week_start hw hcm (List.range 7) e h
  · intro k hk
    rw [List.filter_append,
      allBlocks_filter_eq config week_start hw hcm (List.range 7)
        (List.nodup_range 7) k hk]

/-- Witness for `c7_second_run`: the Monday-work fixture configuration on an
empty event list. -/
theorem c7_witness :
    ((∀ e ∈ ([] : List ScheduledEvent), e.start ≤ e.stop) ∧
      (∀ t ∈ cfgWork.template.toList, ∀ w ∈ t.work.toList,
        0 ≤ w.startMinutes ∧ w.startMinutes ≤ w.endMinutes ∧
          w.endMinutes < 1440) ∧
      (∀ c ∈ cfgWork.commitments,
        0 ≤ c.startMinutes ∧ c.startMinutes ≤ c.endMinutes ∧
          c.endMinutes < 1440)) ∧
    (get_available_slots cfgWork 0 ((get_available_slots cfgWork 0 [] 30).2)
        30).1 =
      (get_available_slots cfgWork 0 [] 30).1 :=
  ⟨⟨by decide, by decide, by decide⟩,
    c7_second_run cfgWork 0 30 [] (by decide) (by decide) (by decide)⟩

end Apps
